import Mathlib

set_option maxRecDepth 8192

/-!
Shallow embedding of the smart-rewards-campaign-ops reward calculator and
claim pipeline (src/src/core/calculations.ts, src/src/clients/smart-rewards-client.ts,
and the orchestrator / on-chain claim client), together with proofs about the
claims of the specification.

JavaScript strings are modelled as Lean `String` values and inspected through
their character lists.  JavaScript `number` and `bigint` are modelled as `Int`
(`BigInt` arithmetic is exact; `parseFloat`/`Number` are modelled by their
exact mathematical value, so double rounding of extreme magnitudes is not
modelled).  Functions that `throw` are modelled in `Except String`.
-/

/-- JS regex `\d`: the characters 0-9. -/
def isDigitCh (c : Char) : Bool := 48 ≤ c.toNat && c.toNat ≤ 57

/-- JS whitespace accepted by parseFloat / StringToBigInt (common subset). -/
def jsWhitespace (c : Char) : Bool :=
  c.toNat == 32 || c.toNat == 9 || c.toNat == 10 || c.toNat == 13 ||
  c.toNat == 11 || c.toNat == 12

/-- Numeric value of a decimal digit character. -/
def digitValOf (c : Char) : Nat := c.toNat - 48

/-- Decimal digit character for a value below ten. -/
def digitCharOf (d : Nat) : Char :=
  match d with
  | 0 => '0' | 1 => '1' | 2 => '2' | 3 => '3' | 4 => '4'
  | 5 => '5' | 6 => '6' | 7 => '7' | 8 => '8' | _ => '9'

/-- Value of a big-endian list of decimal digit characters (JS `BigInt` on an
all-digit string). -/
def valDigits (l : List Char) : Nat :=
  l.foldl (fun acc c => acc * 10 + digitValOf c) 0

/-- Big-endian decimal digit characters of `n`, by structural fuel recursion
(first argument is fuel, kept at least `n`). -/
def natToCharsAux : Nat → Nat → List Char
  | 0, _ => []
  | fuel + 1, n => if n = 0 then [] else natToCharsAux fuel (n / 10) ++ [digitCharOf (n % 10)]

/-- JS `BigInt.prototype.toString` for a non-negative value. -/
def natToString (n : Nat) : String :=
  if n = 0 then "0" else ⟨natToCharsAux (n + 1) n⟩

/-- JS `BigInt.prototype.toString` (negative values get a leading minus). -/
def bigIntToString (n : Int) : String :=
  if n < 0 then ⟨'-' :: (natToString n.natAbs).data⟩ else natToString n.natAbs

/-- Sign (-1, 0, 1) of the exact value parsed by JS `parseFloat`, or `none`
when `parseFloat` returns NaN.  Exponents never change the sign of the exact
value, so they are not inspected. -/
def jsParseFloatSign (s : String) : Option Int :=
  let t := s.data.dropWhile jsWhitespace
  let p : Int × List Char := match t with
    | [] => (1, t)
    | c :: rest => if c == '-' then (-1, rest) else if c == '+' then (1, rest) else (1, t)
  let sgn := p.1
  let u := p.2
  if List.isPrefixOf "Infinity".data u then some sgn
  else
    let d1 := u.takeWhile isDigitCh
    let u2 := u.drop d1.length
    let d2 := match u2 with
      | '.' :: rest => rest.takeWhile isDigitCh
      | _ => []
    if d1.isEmpty && d2.isEmpty then none
    else if (d1 ++ d2).all (fun c => c == '0') then some 0
    else some sgn

/-- `parseFloat(s)` is NaN. -/
def jsParseFloatNaN (s : String) : Bool := (jsParseFloatSign s).isNone

/-- JS comparison `parseFloat(s) <= 0`: false when NaN. -/
def jsParseFloatLeZero (s : String) : Bool :=
  match jsParseFloatSign s with
  | some sg => sg ≤ 0
  | none => false

/-- Digit of the given radix (10 = decimal, 16 = hex, 8 = octal, 2 = binary). -/
def isRadixDigit (b : Nat) (c : Char) : Bool :=
  if b == 16 then
    isDigitCh c || (97 ≤ c.toNat && c.toNat ≤ 102) || (65 ≤ c.toNat && c.toNat ≤ 70)
  else
    48 ≤ c.toNat && c.toNat < 48 + b

/-- Value of a (possibly hex) digit character. -/
def radixValOf (c : Char) : Nat :=
  if 97 ≤ c.toNat then c.toNat - 87
  else if 65 ≤ c.toNat then c.toNat - 55
  else c.toNat - 48

/-- Parse a non-empty all-digit string in the given radix. -/
def radixParse (b : Nat) (l : List Char) : Option Int :=
  if l.isEmpty then none
  else if l.all (isRadixDigit b) then
    some (Int.ofNat (l.foldl (fun acc c => acc * b + radixValOf c) 0))
  else none

/-- Parse an optionally signed decimal digit string. -/
def decParseSigned (l : List Char) : Option Int :=
  match l with
  | [] => radixParse 10 l
  | c :: rest =>
    if c == '-' then (radixParse 10 rest).map (fun n => -n)
    else if c == '+' then radixParse 10 rest
    else radixParse 10 l

/-- JS `BigInt(string)`: `none` models a thrown SyntaxError.  Whitespace is
trimmed, the empty string is 0, `0x`/`0o`/`0b` prefixes select a radix
(without sign), otherwise an optionally signed decimal integer. -/
def jsBigInt? (s : String) : Option Int :=
  let t := ((s.data.dropWhile jsWhitespace).reverse.dropWhile jsWhitespace).reverse
  match t with
  | [] => some 0
  | c :: cs =>
    if c == '0' then
      match cs with
      | [] => decParseSigned t
      | x :: rest =>
        if x == 'x' || x == 'X' then radixParse 16 rest
        else if x == 'o' || x == 'O' then radixParse 8 rest
        else if x == 'b' || x == 'B' then radixParse 2 rest
        else decParseSigned t
    else decParseSigned t

/-- Drop leading zero characters. -/
def dropZeros (l : List Char) : List Char := l.dropWhile (fun c => c == '0')

/-- Strip superfluous leading zeros but keep at least one digit
(JS ``replace(/^0+/, '') || '0'``). -/
def stripLeadingZeros (l : List Char) : List Char :=
  match dropZeros l with
  | [] => ['0']
  | r => r

/-- Remove trailing zero characters (JS ``replace(/0+$/, '')``). -/
def trimTrailingZeros (l : List Char) : List Char :=
  (l.reverse.dropWhile (fun c => c == '0')).reverse

/-- First segment of `decimalAmount.split('.')` (the `whole` binding). -/
def wholeSegment (cs : List Char) : List Char := cs.takeWhile (fun c => c != '.')

/-- Second segment of `decimalAmount.split('.')` (the `fractional` binding,
defaulting to the empty string). -/
def fracSegment (cs : List Char) : List Char :=
  ((cs.dropWhile (fun c => c != '.')).drop 1).takeWhile (fun c => c != '.')

/-- `fractional.padEnd(decimals, '0').slice(0, decimals)` (the
`paddedFractional` binding). -/
def paddedFracSegment (cs : List Char) (dn : Nat) : List Char :=
  (fracSegment cs ++ List.replicate (dn - (fracSegment cs).length) '0').take dn

/-- The `result` binding of `toBaseUnits`: whole and padded fractional parts
concatenated, leading zeros stripped. -/
def baseUnitsDigits (cs : List Char) (dn : Nat) : List Char :=
  stripLeadingZeros (wholeSegment cs ++ paddedFracSegment cs dn)

/-- `baseUnits.padStart(decimals + 1, '0')` (the `paddedBaseUnits` binding of
`fromBaseUnits`). -/
def fbuPadded (cs : List Char) (dn : Nat) : List Char :=
  List.replicate (dn + 1 - cs.length) '0' ++ cs

/-- The `wholePartLength` binding of `fromBaseUnits`. -/
def fbuWholeLen (cs : List Char) (dn : Nat) : Nat := (fbuPadded cs dn).length - dn

/-- The `wholePart` binding of `fromBaseUnits` (with the JS `|| '0'` fallback). -/
def fbuWholePart (cs : List Char) (dn : Nat) : List Char :=
  if ((fbuPadded cs dn).take (fbuWholeLen cs dn)).isEmpty then ['0']
  else (fbuPadded cs dn).take (fbuWholeLen cs dn)

/-- The `fractionalPart` binding of `fromBaseUnits`. -/
def fbuFracPart (cs : List Char) (dn : Nat) : List Char :=
  (fbuPadded cs dn).drop (fbuWholeLen cs dn)

namespace RewardCalculator

/-- `RewardCalculator.toBaseUnits` (src/src/core/calculations.ts:18-51):
convert a decimal string to base units, truncating the fractional part to
`decimals` digits.  The split on `'.'` keeps the first two segments, exactly
as the JS destructuring of `decimalAmount.split('.')` does. -/
def toBaseUnits (decimalAmount : String) (decimals : Int) : Except String String :=
  if decimalAmount.data.isEmpty || jsParseFloatNaN decimalAmount then
    .error ("Invalid decimal amount: " ++ decimalAmount)
  else if decimals < 0 || decimals > 77 then
    .error "Invalid decimals"
  else if (baseUnitsDigits decimalAmount.data decimals.toNat).all isDigitCh then
    .ok ⟨baseUnitsDigits decimalAmount.data decimals.toNat⟩
  else .error "Result is not a valid integer"

/-- `RewardCalculator.fromBaseUnits` (src/src/core/calculations.ts:59-94):
convert base units back to a decimal string. -/
def fromBaseUnits (baseUnits : String) (decimals : Int) : Except String String :=
  if baseUnits.data.isEmpty || !(baseUnits.data.all isDigitCh) then
    .error ("Invalid base units: " ++ baseUnits)
  else if decimals < 0 || decimals > 77 then
    .error "Invalid decimals"
  else if decimals = 0 then .ok baseUnits
  else if (trimTrailingZeros (fbuFracPart baseUnits.data decimals.toNat)).isEmpty then
    .ok ⟨fbuWholePart baseUnits.data decimals.toNat⟩
  else
    .ok ⟨fbuWholePart baseUnits.data decimals.toNat ++
      '.' :: trimTrailingZeros (fbuFracPart baseUnits.data decimals.toNat)⟩

end RewardCalculator

/-- Exact-value equality test `Number(s) === k` for an integer `k` (JS
`Number(string)` semantics: trimmed whitespace, empty string is 0, radix
prefixes, otherwise a decimal literal with optional fraction and exponent;
NaN and Infinity compare unequal to every integer).  The exact mathematical
value is used (double rounding is not modelled). -/
def decNumberEq (l : List Char) (k : Int) : Bool :=
  let sgn : Int := match l with
    | '-' :: _ => -1
    | _ => 1
  let u := match l with
    | '-' :: rest => rest
    | '+' :: rest => rest
    | _ => l
  let d1 := u.takeWhile isDigitCh
  let u2 := u.drop d1.length
  let d2 := match u2 with
    | '.' :: rest => rest.takeWhile isDigitCh
    | _ => []
  let u3 := match u2 with
    | '.' :: rest => rest.drop d2.length
    | _ => u2
  if d1.isEmpty && d2.isEmpty then false
  else
    let eparse : Bool × Int := match u3 with
      | [] => (true, 0)
      | e :: rest =>
        if e == 'e' || e == 'E' then
          match rest with
          | '-' :: ds => (!ds.isEmpty && ds.all isDigitCh, -(Int.ofNat (valDigits ds)))
          | '+' :: ds => (!ds.isEmpty && ds.all isDigitCh, Int.ofNat (valDigits ds))
          | ds => (!ds.isEmpty && ds.all isDigitCh, Int.ofNat (valDigits ds))
        else (false, 0)
    if !eparse.1 then false
    else
      let m : Int := sgn * Int.ofNat (valDigits (d1 ++ d2))
      let e : Int := eparse.2 - Int.ofNat d2.length
      if 0 ≤ e then m * (10 : Int) ^ e.toNat == k else m == k * (10 : Int) ^ (-e).toNat

/-- `Number(s) === k` for an integer target `k`. -/
def jsNumberEqInt (s : String) (k : Int) : Bool :=
  let t := ((s.data.dropWhile jsWhitespace).reverse.dropWhile jsWhitespace).reverse
  match t with
  | [] => k == 0
  | '0' :: x :: rest =>
    if x == 'x' || x == 'X' then
      match radixParse 16 rest with | some v => v == k | none => false
    else if x == 'o' || x == 'O' then
      match radixParse 8 rest with | some v => v == k | none => false
    else if x == 'b' || x == 'B' then
      match radixParse 2 rest with | some v => v == k | none => false
    else decNumberEq t k
  | _ => decNumberEq t k

/-- JS `String.prototype.toLowerCase`, restricted to ASCII. -/
def jsToLower (s : String) : String :=
  ⟨s.data.map (fun c => if 65 ≤ c.toNat && c.toNat ≤ 90 then Char.ofNat (c.toNat + 32) else c)⟩

/-- Eligibility record (interface `ClaimProof` in the repository types). -/
structure ClaimProof where
  chainId : Int
  lastBlockUpdatedTo : Int
  user : String
  campaignId : Int
  amount : String
  proof : List String
  deriving DecidableEq, Repr

/-- Historical claim (interface `ClaimReward`; `campaign` is the campaign id
as a string). -/
structure ClaimReward where
  id : String
  user : String
  amount : String
  campaign : String
  chainId : Int
  timestamp : Int
  deriving DecidableEq, Repr

/-- Result record of `performCalculations` (interface `ClaimCalculations`). -/
structure ClaimCalculations where
  totalEligible : String
  totalClaimed : String
  remaining : String
  canClaim : Bool
  deriving DecidableEq, Repr

/-- Argument bundle for the SmartRewarder claim call
(interface `SmartRewarderClaimArgs`). -/
structure SmartRewarderClaimArgs where
  users : List String
  campaignIds : List Int
  amounts : List String
  proofs : List (List String)
  deriving DecidableEq, Repr

namespace RewardCalculator

/-- `RewardCalculator.addBaseUnits` (calculations.ts:102-113): BigInt addition
of the two strings; a BigInt syntax error becomes a thrown SmartRewardsError. -/
def addBaseUnits (amount1 amount2 : String) : Except String String :=
  match jsBigInt? amount1, jsBigInt? amount2 with
  | some n1, some n2 => .ok (bigIntToString (n1 + n2))
  | _, _ => .error ("Failed to add base units " ++ amount1 ++ " + " ++ amount2)

/-- `RewardCalculator.subtractBaseUnits` (calculations.ts:121-132): BigInt
subtraction floored at zero. -/
def subtractBaseUnits (amount1 amount2 : String) : Except String String :=
  match jsBigInt? amount1, jsBigInt? amount2 with
  | some n1, some n2 => .ok (if n1 - n2 < 0 then "0" else bigIntToString (n1 - n2))
  | _, _ => .error ("Failed to subtract base units " ++ amount1 ++ " - " ++ amount2)

/-- `RewardCalculator.compareBaseUnits` (calculations.ts:140-152). -/
def compareBaseUnits (amount1 amount2 : String) : Except String Int :=
  match jsBigInt? amount1, jsBigInt? amount2 with
  | some n1, some n2 => .ok (if n1 < n2 then -1 else if n2 < n1 then 1 else 0)
  | _, _ => .error ("Failed to compare base units " ++ amount1 ++ " and " ++ amount2)

/-- The accumulation loop shared by `calculateTotalEligible` and
`calculateTotalClaimed`: convert each amount with `toBaseUnits` and add it to
the running total, propagating the first error. -/
def sumAmounts (amounts : List String) (decimals : Int) (total : String) :
    Except String String :=
  match amounts with
  | [] => .ok total
  | a :: rest => do
    let b ← toBaseUnits a decimals
    let t ← addBaseUnits total b
    sumAmounts rest decimals t

/-- `RewardCalculator.calculateTotalEligible` (calculations.ts:160-175). -/
def calculateTotalEligible (proofs : List ClaimProof) (decimals : Int) :
    Except String String :=
  sumAmounts (proofs.map (fun p => p.amount)) decimals "0"

/-- `RewardCalculator.calculateTotalClaimed` (calculations.ts:184-202): filter
the claims whose `campaign` field is numerically equal to the campaign id,
then sum their amounts. -/
def calculateTotalClaimed (claims : List ClaimReward) (campaignId : Int)
    (decimals : Int) : Except String String :=
  sumAmounts ((claims.filter (fun c => jsNumberEqInt c.campaign campaignId)).map
    (fun c => c.amount)) decimals "0"

/-- `RewardCalculator.calculateRemaining` (calculations.ts:210-212). -/
def calculateRemaining (totalEligible totalClaimed : String) : Except String String :=
  subtractBaseUnits totalEligible totalClaimed

/-- `RewardCalculator.performCalculations` (calculations.ts:222-246). -/
def performCalculations (proofs : List ClaimProof) (claims : List ClaimReward)
    (campaignId : Int) (decimals : Int) : Except String ClaimCalculations := do
  let totalEligible ← calculateTotalEligible proofs decimals
  let totalClaimed ← calculateTotalClaimed claims campaignId decimals
  let remaining ← calculateRemaining totalEligible totalClaimed
  let cmp ← compareBaseUnits remaining "0"
  pure { totalEligible := totalEligible, totalClaimed := totalClaimed,
         remaining := remaining, canClaim := decide (0 < cmp) }

/-- Human-readable form of `formatCalculations` (calculations.ts:254-266). -/
structure FormattedCalculations where
  totalEligible : String
  totalClaimed : String
  remaining : String
  canClaim : Bool
  deriving DecidableEq, Repr

/-- `RewardCalculator.formatCalculations` (calculations.ts:254-266). -/
def formatCalculations (calculations : ClaimCalculations) (decimals : Int) :
    Except String FormattedCalculations := do
  let te ← fromBaseUnits calculations.totalEligible decimals
  let tc ← fromBaseUnits calculations.totalClaimed decimals
  let rem ← fromBaseUnits calculations.remaining decimals
  pure { totalEligible := te, totalClaimed := tc, remaining := rem,
         canClaim := calculations.canClaim }

/-- `RewardCalculator.validateClaimProofs` (calculations.ts:274-296): checks
each record in order; the amount check is JS `!amount || parseFloat(amount) <= 0`
(false for NaN). -/
def validateClaimProofs (proofs : List ClaimProof) (expectedUser : String)
    (expectedCampaignId : Int) : Except String Unit :=
  match proofs with
  | [] => .ok ()
  | p :: rest =>
    if jsToLower p.user != jsToLower expectedUser then
      .error ("Proof user mismatch: expected " ++ expectedUser ++ ", got " ++ p.user)
    else if p.campaignId != expectedCampaignId then
      .error "Proof campaign mismatch"
    else if p.proof.isEmpty then
      .error "Empty proof array found"
    else if p.amount.data.isEmpty || jsParseFloatLeZero p.amount then
      .error ("Invalid proof amount: " ++ p.amount)
    else validateClaimProofs rest expectedUser expectedCampaignId

/-- The maximum unsigned 256-bit value, written in the source as
`BigInt('0xffff...ffff')` with sixty-four f digits. -/
def MAX_UINT256 : Int := 2 ^ 256 - 1

/-- `RewardCalculator.validateAmountsForOnChain` (calculations.ts:326-340):
every amount must be a BigInt in `[0, MAX_UINT256]`; a BigInt syntax error is
caught and also yields `false`. -/
def validateAmountsForOnChain (amounts : List String) : Bool :=
  amounts.all (fun a =>
    match jsBigInt? a with
    | some v => decide (0 ≤ v) && decide (v ≤ MAX_UINT256)
    | none => false)

end RewardCalculator

/-- Reward token metadata (interface `Token`), reduced to the field the
reconciliation pipeline reads. -/
structure Token where
  decimals : Int
  deriving DecidableEq, Repr

/-- Campaign record (interface `Campaign`), reduced to the fields read by
`getUserClaimableCampaigns`. -/
structure Campaign where
  campaignId : Int
  rewardToken : Token
  deriving DecidableEq, Repr

namespace SmartRewarderOnChainClient

/-- The per-record accumulation loop of `prepareClaimArgs`: validate each
record's structure (`!proof.user || !proof.proof || proof.proof.length === 0`)
and push its fields onto the four arrays, in input order. -/
def buildArgsLoop (proofs : List ClaimProof) :
    Except String (List String × List Int × List String × List (List String)) :=
  match proofs with
  | [] => .ok ([], [], [], [])
  | p :: rest =>
    if p.user.data.isEmpty || p.proof.isEmpty then
      .error "Invalid proof structure"
    else do
      let (us, cs, ams, ps) ← buildArgsLoop rest
      pure (p.user :: us, p.campaignId :: cs, p.amount :: ams, p.proof :: ps)

/-- `SmartRewarderOnChainClient.prepareClaimArgs`: rejects an empty batch,
validates each record, re-checks that the four arrays have equal lengths, and
finally requires `validateAmountsForOnChain` on the amounts. -/
def prepareClaimArgs (proofs : List ClaimProof) : Except String SmartRewarderClaimArgs :=
  if proofs.isEmpty then .error "No proofs provided for claim"
  else
    match buildArgsLoop proofs with
    | .error e => .error e
    | .ok (us, cs, ams, ps) =>
      if us.length != cs.length || us.length != ams.length || us.length != ps.length then
        .error "Inconsistent array lengths in claim arguments"
      else if !(RewardCalculator.validateAmountsForOnChain ams) then
        .error "One or more amounts exceed safe limits for on-chain use"
      else .ok { users := us, campaignIds := cs, amounts := ams, proofs := ps }

end SmartRewarderOnChainClient

/-- GraphQL page info (`PageInfo`): `endCursor` is nullable at runtime, so it
is modelled as an `Option`; JS falsiness of the cursor also covers the empty
string. -/
structure PageInfo where
  hasNextPage : Bool
  endCursor : Option String
  deriving DecidableEq, Repr

/-- JS falsiness of the continuation cursor (`!cursor`). -/
def cursorFalsy (c : Option String) : Bool :=
  match c with
  | none => true
  | some s => s.data.isEmpty

/-- One edge of the claim-proof connection. -/
structure ClaimProofEdge where
  cursor : String
  node : ClaimProof
  deriving DecidableEq, Repr

/-- One page of the claim-proof connection, as returned by `fetchClaimProofs`. -/
structure ClaimProofsPage where
  edges : List ClaimProofEdge
  pageInfo : PageInfo
  deriving DecidableEq, Repr

/-- One edge of the historical-claim connection. -/
structure ClaimRewardEdge where
  cursor : String
  node : ClaimReward
  deriving DecidableEq, Repr

/-- One page of the historical-claim connection. -/
structure ClaimRewardsPage where
  edges : List ClaimRewardEdge
  pageInfo : PageInfo
  deriving DecidableEq, Repr

namespace SmartRewardsGraphQLClient

/-- `fetchAllClaimProofs` (smart-rewards-client.ts:124-159).  The successive
server responses are supplied as a list consumed in order.  The loop
accumulates `edges.map(e => e.node)`, continues while `hasNextPage` holds, and
breaks (without error) when `hasNextPage` is true but the cursor is falsy. -/
def fetchAllClaimProofs (pages : List ClaimProofsPage) : List ClaimProof :=
  match pages with
  | [] => []
  | page :: rest =>
    let proofs := page.edges.map (fun e => e.node)
    if page.pageInfo.hasNextPage then
      if cursorFalsy page.pageInfo.endCursor then proofs
      else proofs ++ fetchAllClaimProofs rest
    else proofs

/-- `fetchAllHistoricalClaims` (smart-rewards-client.ts:202-237): the same
loop over the historical-claim connection. -/
def fetchAllHistoricalClaims (pages : List ClaimRewardsPage) : List ClaimReward :=
  match pages with
  | [] => []
  | page :: rest =>
    let claims := page.edges.map (fun e => e.node)
    if page.pageInfo.hasNextPage then
      if cursorFalsy page.pageInfo.endCursor then claims
      else claims ++ fetchAllHistoricalClaims rest
    else claims

end SmartRewardsGraphQLClient

/-- One entry of the `getUserClaimableCampaigns` result. -/
structure ClaimableCampaignEntry where
  campaign : Campaign
  canClaim : Bool
  remaining : String
  calculations : ClaimCalculations
  deriving DecidableEq, Repr

/-- Exact value of `parseFloat` on a plain decimal string (digits with at most
one dot), as a scaled pair: `decimalVal s = some (n, e)` means the value is
`n / 10 ^ e`.  The `remaining` strings compared by the orchestrator's sort all
have this shape. -/
def decimalVal (s : String) : Option (Nat × Nat) :=
  let d1 := s.data.takeWhile isDigitCh
  let rest := s.data.drop d1.length
  match rest with
  | [] => if d1.isEmpty then none else some (valDigits d1, 0)
  | '.' :: f =>
    if (d1.isEmpty && f.isEmpty) || !(f.all isDigitCh) then none
    else some (valDigits (d1 ++ f), f.length)
  | _ => none

/-- `parseFloat(x) <= parseFloat(y)` for plain decimal strings, by exact
value (an unparseable operand is treated as 0, a case the orchestrator never
produces since every `remaining` it sorts comes out of `fromBaseUnits`). -/
def decimalLe (x y : String) : Bool :=
  decide (((decimalVal x).getD (0, 0)).1 * 10 ^ ((decimalVal y).getD (0, 0)).2 ≤
    ((decimalVal y).getD (0, 0)).1 * 10 ^ ((decimalVal x).getD (0, 0)).2)

/-- `parseFloat(x) < parseFloat(y)` for plain decimal strings, by exact
value. -/
def decimalLt (x y : String) : Bool :=
  decide (((decimalVal x).getD (0, 0)).1 * 10 ^ ((decimalVal y).getD (0, 0)).2 <
    ((decimalVal y).getD (0, 0)).1 * 10 ^ ((decimalVal x).getD (0, 0)).2)

/-- Insert into a sorted list, keeping `a` before the first element it is
`le`-below and after everything else (the insertion step of a stable sort:
an element is placed after all earlier elements it ties with). -/
def jsSortInsert {α : Type} (le : α → α → Bool) (a : α) : List α → List α
  | [] => [a]
  | b :: l => if le a b then a :: b :: l else b :: jsSortInsert le a l

/-- Stable sort by the boolean relation `le`, modelling JS
`Array.prototype.sort` with a consistent comparator (JS engines implement a
stable sort; any stable sort by the same total preorder yields the same
list). -/
def jsStableSort {α : Type} (le : α → α → Bool) : List α → List α
  | [] => []
  | a :: l => jsSortInsert le a (jsStableSort le l)

namespace SteerClient

/-- The JS sort comparator of `getUserClaimableCampaigns` as a boolean
"keep `a` before `b`" relation: claimable entries first, then larger
`parseFloat(remaining)` first (the comparator returns
`parseFloat(b.remaining) - parseFloat(a.remaining)`). -/
def entryLe (a b : ClaimableCampaignEntry) : Bool :=
  if a.canClaim != b.canClaim then a.canClaim
  else decimalLe b.remaining a.remaining

/-- The body of the per-campaign `try` block of `getUserClaimableCampaigns`:
reconcile the campaign (`calculateRewards`, whose outcome is supplied by the
`reconcile` oracle standing for the network fetches plus
`performCalculations`), format the result, and build the entry.  Any thrown
error makes the campaign be skipped (`none`). -/
def perCampaign (reconcile : Campaign → Except String ClaimCalculations)
    (campaign : Campaign) : Option ClaimableCampaignEntry :=
  match reconcile campaign with
  | .error _ => none
  | .ok calculations =>
    match RewardCalculator.formatCalculations calculations campaign.rewardToken.decimals with
    | .error _ => none
    | .ok formatted =>
      some { campaign := campaign, canClaim := calculations.canClaim,
             remaining := formatted.remaining, calculations := calculations }

/-- `getUserClaimableCampaigns` (orchestrator): reconcile each campaign in
sequence, skip the ones that throw, and sort the survivors with the JS
comparator (modelled by a merge sort, a stable sort agreeing with JS
`Array.prototype.sort` on this consistent comparator). -/
def getUserClaimableCampaigns (reconcile : Campaign → Except String ClaimCalculations)
    (campaigns : List Campaign) : List ClaimableCampaignEntry :=
  jsStableSort entryLe (campaigns.filterMap (perCampaign reconcile))

end SteerClient


/-- A base-unit string: non-empty and all decimal digits. -/
def isBaseUnitString (s : String) : Bool :=
  !s.data.isEmpty && s.data.all isDigitCh

/-- No superfluous leading zeros: a non-empty string that is either the
single digit string or does not start with a zero. -/
def noSuperfluousZeros (s : String) : Bool :=
  match s.data with
  | [] => false
  | c :: rest => c != '0' || rest.isEmpty

/-- Numeric value of a successful `toBaseUnits` conversion (0 on error; only
used under a success hypothesis). -/
def baseVal (s : String) (d : Int) : Nat :=
  match RewardCalculator.toBaseUnits s d with
  | .ok b => valDigits b.data
  | .error _ => 0

/-- Success test for the `Except` monad modelling JS exceptions. -/
def isOkE {α : Type} (e : Except String α) : Bool :=
  match e with
  | .ok _ => true
  | .error _ => false

/-- The canonical form of a decimal string given by its whole part `w` and
fractional part `f`, in the words of the specification: superfluous leading
zeros of the whole part and trailing zeros of the fractional part are
removed, and the dot is removed when the fractional part becomes empty. -/
def canonicalDec (w f : List Char) : String :=
  let w2 := stripLeadingZeros w
  let f2 := trimTrailingZeros f
  if f2.isEmpty then ⟨w2⟩ else ⟨w2 ++ '.' :: f2⟩

/-! ### Character-level facts -/

theorem char_eq_of_toNat_eq {c d : Char} (h : c.toNat = d.toNat) : c = d :=
  Char.eq_of_val_eq (UInt32.ext h)

theorem isDigitCh_iff {c : Char} : isDigitCh c = true ↔ 48 ≤ c.toNat ∧ c.toNat ≤ 57 := by
  simp [isDigitCh]

theorem digitCharOf_toNat : ∀ d, d < 10 → (digitCharOf d).toNat = 48 + d := by decide

theorem isDigitCh_digitCharOf : ∀ d, d < 10 → isDigitCh (digitCharOf d) = true := by decide

theorem digitValOf_digitCharOf : ∀ d, d < 10 → digitValOf (digitCharOf d) = d := by decide

theorem digitCharOf_ne_zeroCh : ∀ d, d < 10 → 0 < d → (digitCharOf d == '0') = false := by decide

theorem digitCharOf_digitValOf {c : Char} (h : isDigitCh c = true) :
    digitCharOf (digitValOf c) = c := by
  have hb := isDigitCh_iff.mp h
  have hlt : digitValOf c < 10 := by
    simp only [digitValOf]; omega
  apply char_eq_of_toNat_eq
  rw [digitCharOf_toNat _ hlt]
  simp only [digitValOf]; omega

theorem beq_false_of_isDigitCh_of_not (x : Char) {c : Char} (h : isDigitCh c = true)
    (hx : isDigitCh x = false) : (c == x) = false := by
  cases hcx : c == x
  · rfl
  · exact absurd h (by rw [eq_of_beq hcx, hx]; simp)

theorem jsWhitespace_eq_false_of_digit {c : Char} (h : isDigitCh c = true) :
    jsWhitespace c = false := by
  have hb := isDigitCh_iff.mp h
  simp only [jsWhitespace, Bool.or_eq_false_iff]
  refine ⟨⟨⟨⟨⟨?_, ?_⟩, ?_⟩, ?_⟩, ?_⟩, ?_⟩ <;> simp [Nat.beq_eq_true_eq] <;> omega

theorem digit_bne_dot {c : Char} (h : isDigitCh c = true) : (c != '.') = true := by
  simp only [bne, beq_false_of_isDigitCh_of_not '.' h (by decide), Bool.not_false]

/-! ### List helper facts -/

theorem takeWhile_append_of_all {α : Type} {p : α → Bool} {l r : List α}
    (h : ∀ c ∈ l, p c = true) : (l ++ r).takeWhile p = l ++ r.takeWhile p := by
  induction l with
  | nil => simp
  | cons a t ih =>
    have ha := h a (by simp)
    simp [List.takeWhile_cons, ha, ih (fun c hc => h c (by simp [hc]))]

theorem dropWhile_append_of_all {α : Type} {p : α → Bool} {l r : List α}
    (h : ∀ c ∈ l, p c = true) : (l ++ r).dropWhile p = r.dropWhile p := by
  induction l with
  | nil => simp
  | cons a t ih =>
    have ha := h a (by simp)
    simp [List.dropWhile_cons, ha, ih (fun c hc => h c (by simp [hc]))]

theorem takeWhile_eq_self_of_all {α : Type} {p : α → Bool} {l : List α}
    (h : ∀ c ∈ l, p c = true) : l.takeWhile p = l := by
  induction l with
  | nil => simp
  | cons a t ih =>
    have ha := h a (by simp)
    simp [List.takeWhile_cons, ha, ih (fun c hc => h c (by simp [hc]))]

theorem dropWhile_eq_self_of_all {α : Type} {p : α → Bool} {l : List α}
    (h : ∀ c ∈ l, p c = false) : l.dropWhile p = l := by
  cases l with
  | nil => simp
  | cons a t => simp [List.dropWhile_cons, h a (by simp)]

theorem dropWhile_eq_nil_of_all {α : Type} {p : α → Bool} {l : List α}
    (h : ∀ c ∈ l, p c = true) : l.dropWhile p = [] := by
  induction l with
  | nil => simp
  | cons a t ih =>
    have ha := h a (by simp)
    simp [List.dropWhile_cons, ha, ih (fun c hc => h c (by simp [hc]))]

theorem trim_eq_self_of_no_ws {l : List Char} (h : ∀ c ∈ l, jsWhitespace c = false) :
    ((l.dropWhile jsWhitespace).reverse.dropWhile jsWhitespace).reverse = l := by
  rw [dropWhile_eq_self_of_all h,
      dropWhile_eq_self_of_all (fun c hc => h c (List.mem_reverse.mp hc)),
      List.reverse_reverse]

theorem trimTrailingZeros_append_replicate (f : List Char) (k : Nat) :
    trimTrailingZeros (f ++ List.replicate k '0') = trimTrailingZeros f := by
  simp only [trimTrailingZeros, List.reverse_append, List.reverse_replicate]
  rw [dropWhile_append_of_all (by intro c hc; rw [List.eq_of_mem_replicate hc]; rfl)]

theorem trimTrailingZeros_eq_nil_iff {f : List Char} :
    trimTrailingZeros f = [] ↔ ∀ c ∈ f, c = '0' := by
  simp only [trimTrailingZeros, List.reverse_eq_nil_iff]
  constructor
  · intro h c hc
    by_contra hne
    have hmem : c ∈ f.reverse.dropWhile (fun c => c == '0') → False := by
      rw [h]; simp
    have : f.reverse.dropWhile (fun c => c == '0') = [] := h
    have hsplit := List.takeWhile_append_dropWhile (fun c => c == '0') f.reverse
    rw [this, List.append_nil] at hsplit
    have : c ∈ f.reverse.takeWhile (fun c => c == '0') := by
      rw [hsplit]; exact List.mem_reverse.mpr hc
    have := List.mem_takeWhile_imp this
    exact hne (by simpa using this)
  · intro h
    apply dropWhile_eq_nil_of_all
    intro c hc
    simp [h c (List.mem_reverse.mp hc)]

/-! ### Decimal string / number bridges -/

theorem foldl_digits_eq (l : List Char) :
    ∀ acc : Nat, l.foldl (fun a c => a * 10 + digitValOf c) acc =
      acc * 10 ^ l.length + Nat.ofDigits 10 ((l.map digitValOf).reverse) := by
  induction l with
  | nil => intro acc; simp
  | cons c t ih =>
    intro acc
    simp only [List.foldl_cons, List.map_cons, List.reverse_cons, List.length_cons]
    rw [ih, Nat.ofDigits_append]
    simp only [List.length_reverse, List.length_map, Nat.ofDigits_singleton]
    ring

theorem valDigits_eq_ofDigits (l : List Char) :
    valDigits l = Nat.ofDigits 10 ((l.map digitValOf).reverse) := by
  simpa using foldl_digits_eq l 0

theorem natToCharsAux_eq {fuel n : Nat} (h : n ≤ fuel) :
    natToCharsAux fuel n = ((Nat.digits 10 n).map digitCharOf).reverse := by
  induction fuel generalizing n with
  | zero =>
    have : n = 0 := Nat.le_zero.mp h
    subst this; simp [natToCharsAux]
  | succ fuel ih =>
    by_cases hn : n = 0
    · subst hn; simp [natToCharsAux]
    · have hrec : Nat.digits 10 n = n % 10 :: Nat.digits 10 (n / 10) :=
        Nat.digits_def' (by norm_num) (Nat.pos_of_ne_zero hn)
      have hdiv : n / 10 ≤ fuel := by
        have := Nat.div_lt_self (Nat.pos_of_ne_zero hn) (by norm_num : 1 < 10)
        omega
      simp only [natToCharsAux, hn, if_false, ih hdiv, hrec, List.map_cons,
        List.reverse_cons]

theorem natToString_data (n : Nat) :
    (natToString n).data = if n = 0 then ['0'] else ((Nat.digits 10 n).map digitCharOf).reverse := by
  by_cases hn : n = 0
  · subst hn; rfl
  · simp only [natToString, hn, if_false]
    exact natToCharsAux_eq (Nat.le_succ n)

theorem natToString_all_digits (n : Nat) : (natToString n).data.all isDigitCh = true := by
  rw [natToString_data]
  by_cases hn : n = 0
  · subst hn; rfl
  · simp only [hn, if_false, List.all_eq_true]
    intro c hc
    obtain ⟨d, hd, rfl⟩ := List.mem_map.mp (List.mem_reverse.mp hc)
    exact isDigitCh_digitCharOf d (Nat.digits_lt_base (by norm_num) hd)

theorem natToString_ne_nil (n : Nat) : (natToString n).data ≠ [] := by
  rw [natToString_data]
  by_cases hn : n = 0
  · simp [hn]
  · simp only [hn, if_false, ne_eq, List.reverse_eq_nil_iff, List.map_eq_nil_iff]
    exact Nat.digits_ne_nil_iff_ne_zero.mpr hn

theorem valDigits_natToString (n : Nat) : valDigits (natToString n).data = n := by
  rw [natToString_data]
  by_cases hn : n = 0
  · simp [hn]; rfl
  · simp only [hn, if_false]
    rw [valDigits_eq_ofDigits]
    rw [List.map_reverse, List.reverse_reverse, List.map_map]
    have : (Nat.digits 10 n).map (digitValOf ∘ digitCharOf) = (Nat.digits 10 n).map id :=
      List.map_congr_left (fun d hd => digitValOf_digitCharOf d (Nat.digits_lt_base (by norm_num) hd))
    rw [this, List.map_id, Nat.ofDigits_digits]

theorem foldl_radix_eq_digit {l : List Char} (h : ∀ c ∈ l, isDigitCh c = true) :
    ∀ acc : Nat, l.foldl (fun acc c => acc * 10 + radixValOf c) acc =
      l.foldl (fun acc c => acc * 10 + digitValOf c) acc := by
  induction l with
  | nil => intro acc; rfl
  | cons c t ih =>
    intro acc
    have hcb := isDigitCh_iff.mp (h c (by simp))
    have hval : radixValOf c = digitValOf c := by
      simp only [radixValOf, digitValOf]
      have h97 : ¬ (97 ≤ c.toNat) := by omega
      have h65 : ¬ (65 ≤ c.toNat) := by omega
      simp [h97, h65]
    simp only [List.foldl_cons, hval]
    exact ih (fun x hx => h x (by simp [hx])) _

theorem radixParse_digits {l : List Char} (h0 : l ≠ []) (h : l.all isDigitCh = true) :
    radixParse 10 l = some (Int.ofNat (valDigits l)) := by
  have hall : l.all (isRadixDigit 10) = true := by
    simp only [List.all_eq_true] at h ⊢
    intro c hc
    have := isDigitCh_iff.mp (h c hc)
    simp only [isRadixDigit]
    norm_num
    omega
  simp only [radixParse, List.isEmpty_iff, h0, if_false, hall, if_true, valDigits,
    foldl_radix_eq_digit (List.all_eq_true.mp h) 0]

theorem decParseSigned_digits {l : List Char} (h0 : l ≠ []) (h : l.all isDigitCh = true) :
    decParseSigned l = some (Int.ofNat (valDigits l)) := by
  match l with
  | [] => exact absurd rfl h0
  | c :: rest =>
    have hc : isDigitCh c = true := (List.all_eq_true.mp h) c (by simp)
    simp only [decParseSigned,
      beq_false_of_isDigitCh_of_not '-' hc (by decide),
      beq_false_of_isDigitCh_of_not '+' hc (by decide), if_false]
    exact radixParse_digits h0 h

theorem jsBigInt_digit_string {l : List Char} (h0 : l ≠ []) (h : l.all isDigitCh = true) :
    jsBigInt? ⟨l⟩ = some (Int.ofNat (valDigits l)) := by
  have hnws : ∀ c ∈ l, jsWhitespace c = false := by
    intro c hc
    exact jsWhitespace_eq_false_of_digit ((List.all_eq_true.mp h) c hc)
  show (match ((l.dropWhile jsWhitespace).reverse.dropWhile jsWhitespace).reverse with
    | [] => some 0
    | c :: cs =>
      if c == '0' then
        match cs with
        | [] => decParseSigned (((l.dropWhile jsWhitespace).reverse.dropWhile jsWhitespace).reverse)
        | x :: rest =>
          if x == 'x' || x == 'X' then radixParse 16 rest
          else if x == 'o' || x == 'O' then radixParse 8 rest
          else if x == 'b' || x == 'B' then radixParse 2 rest
          else decParseSigned (((l.dropWhile jsWhitespace).reverse.dropWhile jsWhitespace).reverse)
      else decParseSigned (((l.dropWhile jsWhitespace).reverse.dropWhile jsWhitespace).reverse)) =
    some (Int.ofNat (valDigits l))
  rw [trim_eq_self_of_no_ws hnws]
  match l, h0 with
  | c :: cs, _ =>
    have hc : isDigitCh c = true := (List.all_eq_true.mp h) c (by simp)
    by_cases hcz : (c == '0') = true
    · simp only [hcz, if_true]
      match cs with
      | [] => exact decParseSigned_digits (by simp) h
      | x :: rest =>
        have hx : isDigitCh x = true := (List.all_eq_true.mp h) x (by simp)
        simp only [beq_false_of_isDigitCh_of_not 'x' hx (by decide),
          beq_false_of_isDigitCh_of_not 'X' hx (by decide),
          beq_false_of_isDigitCh_of_not 'o' hx (by decide),
          beq_false_of_isDigitCh_of_not 'O' hx (by decide),
          beq_false_of_isDigitCh_of_not 'b' hx (by decide),
          beq_false_of_isDigitCh_of_not 'B' hx (by decide),
          Bool.or_self, if_false]
        exact decParseSigned_digits (by simp) h
    · simp only [Bool.not_eq_true] at hcz
      simp only [hcz, if_false]
      exact decParseSigned_digits (by simp) h

theorem jsBigInt_natToString (n : Nat) : jsBigInt? (natToString n) = some (Int.ofNat n) := by
  have h1 : (natToString n).data ≠ [] := natToString_ne_nil n
  have h2 : (natToString n).data.all isDigitCh = true := natToString_all_digits n
  have : (⟨(natToString n).data⟩ : String) = natToString n := rfl
  rw [← this, jsBigInt_digit_string h1 h2, valDigits_natToString]

theorem natToString_valDigits {l : List Char} (h0 : l ≠ []) (h : l.all isDigitCh = true)
    (hlead : l = ['0'] ∨ l.head? ≠ some '0') : natToString (valDigits l) = ⟨l⟩ := by
  rcases hlead with h1 | h1
  · subst h1; rfl
  · match l, h0 with
    | c :: cs, _ =>
      have hc : isDigitCh c = true := (List.all_eq_true.mp h) c (by simp)
      have hcz : c ≠ '0' := by
        intro hcz
        exact h1 (by simp [hcz])
      have hvpos : 0 < digitValOf c := by
        have hb := isDigitCh_iff.mp hc
        have : c.toNat ≠ 48 := by
          intro h48
          exact hcz (char_eq_of_toNat_eq (show c.toNat = Char.toNat '0' from h48))
        simp only [digitValOf]
        omega
      set L : List Nat := (c :: cs).map digitValOf with hL
      have hlt : ∀ x ∈ L.reverse, x < 10 := by
        intro x hx
        obtain ⟨d, hd, rfl⟩ := List.mem_map.mp (List.mem_reverse.mp hx)
        have := isDigitCh_iff.mp ((List.all_eq_true.mp h) d hd)
        simp only [digitValOf]
        omega
      have hlast : ∀ hne : L.reverse ≠ [], L.reverse.getLast hne ≠ 0 := by
        intro hne
        rw [List.getLast_reverse]
        simp only [hL, List.map_cons, List.head_cons]
        omega
      have hdig : Nat.digits 10 (Nat.ofDigits 10 L.reverse) = L.reverse :=
        Nat.digits_ofDigits 10 (by norm_num) L.reverse hlt hlast
      have hval : valDigits (c :: cs) = Nat.ofDigits 10 L.reverse := by
        rw [valDigits_eq_ofDigits]
      have hne0 : Nat.ofDigits 10 L.reverse ≠ 0 := by
        intro hz
        rw [hz] at hdig
        simp only [Nat.digits_zero] at hdig
        have hLnil : L = [] := by simpa using hdig.symm
        simp [hL] at hLnil
      rw [hval, natToString]
      simp only [hne0, if_false]
      congr 1
      rw [natToCharsAux_eq (Nat.le_succ _), hdig, ← List.map_reverse, List.reverse_reverse,
        hL, List.map_map]
      have : (c :: cs).map (digitCharOf ∘ digitValOf) = (c :: cs).map id :=
        List.map_congr_left (fun d hd => digitCharOf_digitValOf ((List.all_eq_true.mp h) d hd))
      rw [this, List.map_id]

theorem stripLeadingZeros_ne_nil (l : List Char) : stripLeadingZeros l ≠ [] := by
  unfold stripLeadingZeros
  split
  · simp
  · simp_all

theorem bigIntToString_ofNat (n : Nat) : bigIntToString (Int.ofNat n) = natToString n := by
  simp [bigIntToString]

theorem jsBigInt_str (s : String) : jsBigInt? s = jsBigInt? ⟨s.data⟩ := rfl

theorem addBaseUnits_natToString (m : Nat) {s : String} (h0 : s.data ≠ [])
    (h : s.data.all isDigitCh = true) :
    RewardCalculator.addBaseUnits (natToString m) s =
      .ok (natToString (m + valDigits s.data)) := by
  unfold RewardCalculator.addBaseUnits
  rw [jsBigInt_natToString, jsBigInt_str s, jsBigInt_digit_string h0 h]
  show Except.ok (bigIntToString (Int.ofNat (m + valDigits s.data))) = _
  rw [bigIntToString_ofNat]

theorem subtractBaseUnits_natToString (m k : Nat) :
    RewardCalculator.subtractBaseUnits (natToString m) (natToString k) =
      .ok (natToString (m - k)) := by
  unfold RewardCalculator.subtractBaseUnits
  rw [jsBigInt_natToString, jsBigInt_natToString]
  show Except.ok (if (Int.ofNat m - Int.ofNat k : Int) < 0 then "0"
    else bigIntToString (Int.ofNat m - Int.ofNat k)) = _
  by_cases hlt : m < k
  · have hneg : (Int.ofNat m - Int.ofNat k : Int) < 0 := by
      simp only [Int.ofNat_eq_coe]; omega
    rw [if_pos hneg]
    have : m - k = 0 := Nat.sub_eq_zero_of_le (Nat.le_of_lt hlt)
    rw [this]
    rfl
  · have hge : k ≤ m := Nat.le_of_not_lt hlt
    have hnoneg : ¬ ((Int.ofNat m - Int.ofNat k : Int) < 0) := by
      simp only [Int.ofNat_eq_coe]; omega
    rw [if_neg hnoneg]
    have : (Int.ofNat m - Int.ofNat k : Int) = Int.ofNat (m - k) := by
      simp only [Int.ofNat_eq_coe]; omega
    rw [this, bigIntToString_ofNat]

theorem compareBaseUnits_natToString_zero (n : Nat) :
    RewardCalculator.compareBaseUnits (natToString n) "0" =
      .ok (if 0 < n then 1 else 0) := by
  unfold RewardCalculator.compareBaseUnits
  have h0 : jsBigInt? "0" = some (Int.ofNat 0) := rfl
  rw [jsBigInt_natToString, h0]
  show Except.ok (if (Int.ofNat n : Int) < 0 then -1
    else if (Int.ofNat 0 : Int) < Int.ofNat n then 1 else 0) = _
  have hneg : ¬ ((Int.ofNat n : Int) < 0) := by simp only [Int.ofNat_eq_coe]; omega
  rw [if_neg hneg]
  by_cases hp : 0 < n
  · have : (Int.ofNat 0 : Int) < Int.ofNat n := by simp only [Int.ofNat_eq_coe]; omega
    rw [if_pos this, if_pos hp]
  · have : ¬ ((Int.ofNat 0 : Int) < Int.ofNat n) := by simp only [Int.ofNat_eq_coe]; omega
    rw [if_neg this, if_neg hp]

theorem toBaseUnits_ok_shape {s : String} {d : Int} {b : String}
    (h : RewardCalculator.toBaseUnits s d = .ok b) :
    b.data ≠ [] ∧ b.data.all isDigitCh = true := by
  unfold RewardCalculator.toBaseUnits at h
  split at h
  · exact absurd h (by simp)
  · split at h
    · exact absurd h (by simp)
    · split at h
      case isTrue hall =>
        have hb : b = ⟨_⟩ := (Except.ok.injEq _ _).mp h.symm
        subst hb
        exact ⟨stripLeadingZeros_ne_nil _, hall⟩
      case isFalse => exact absurd h (by simp)

theorem baseVal_eq {s : String} {d : Int} {b : String}
    (h : RewardCalculator.toBaseUnits s d = .ok b) : baseVal s d = valDigits b.data := by
  simp [baseVal, h]

theorem sumAmounts_ok {amounts : List String} {d : Int}
    (h : ∀ a ∈ amounts, isOkE (RewardCalculator.toBaseUnits a d) = true) :
    ∀ acc : Nat, RewardCalculator.sumAmounts amounts d (natToString acc) =
      .ok (natToString (acc + (amounts.map (fun a => baseVal a d)).sum)) := by
  induction amounts with
  | nil => intro acc; simp [RewardCalculator.sumAmounts]
  | cons a t ih =>
    intro acc
    have ha := h a (by simp)
    obtain ⟨b, hb⟩ : ∃ b, RewardCalculator.toBaseUnits a d = .ok b := by
      cases hab : RewardCalculator.toBaseUnits a d with
      | ok b => exact ⟨b, rfl⟩
      | error e => rw [hab] at ha; simp [isOkE] at ha
    obtain ⟨hbe, hbd⟩ := toBaseUnits_ok_shape hb
    show (RewardCalculator.toBaseUnits a d).bind _ = _
    rw [hb]
    show (RewardCalculator.addBaseUnits (natToString acc) b).bind _ = _
    rw [addBaseUnits_natToString acc hbe hbd]
    show RewardCalculator.sumAmounts t d (natToString (acc + valDigits b.data)) = _
    rw [ih (fun x hx => h x (by simp [hx]))]
    simp only [List.map_cons, List.sum_cons]
    rw [baseVal_eq hb, Nat.add_assoc]

theorem performCalculations_spec (proofs : List ClaimProof) (claims : List ClaimReward)
    (c d : Int)
    (hE : ∀ p ∈ proofs, isOkE (RewardCalculator.toBaseUnits p.amount d) = true)
    (hC : ∀ cl ∈ claims.filter (fun cl => jsNumberEqInt cl.campaign c),
      isOkE (RewardCalculator.toBaseUnits cl.amount d) = true) :
    RewardCalculator.performCalculations proofs claims c d = .ok
      { totalEligible := natToString ((proofs.map (fun p => baseVal p.amount d)).sum),
        totalClaimed := natToString (((claims.filter
          (fun cl => jsNumberEqInt cl.campaign c)).map (fun cl => baseVal cl.amount d)).sum),
        remaining := natToString ((proofs.map (fun p => baseVal p.amount d)).sum -
          ((claims.filter (fun cl => jsNumberEqInt cl.campaign c)).map
            (fun cl => baseVal cl.amount d)).sum),
        canClaim := decide ((((claims.filter (fun cl => jsNumberEqInt cl.campaign c)).map
          (fun cl => baseVal cl.amount d)).sum) <
          (proofs.map (fun p => baseVal p.amount d)).sum) } := by
  have hE2 : ∀ a ∈ proofs.map (fun p => p.amount),
      isOkE (RewardCalculator.toBaseUnits a d) = true := by
    intro a ha
    obtain ⟨p, hp, rfl⟩ := List.mem_map.mp ha
    exact hE p hp
  have hC2 : ∀ a ∈ (claims.filter (fun cl => jsNumberEqInt cl.campaign c)).map
      (fun cl => cl.amount), isOkE (RewardCalculator.toBaseUnits a d) = true := by
    intro a ha
    obtain ⟨cl, hcl, rfl⟩ := List.mem_map.mp ha
    exact hC cl hcl
  have h0 : ("0" : String) = natToString 0 := rfl
  have hTE : RewardCalculator.calculateTotalEligible proofs d =
      .ok (natToString ((proofs.map (fun p => baseVal p.amount d)).sum)) := by
    unfold RewardCalculator.calculateTotalEligible
    rw [h0, sumAmounts_ok hE2 0, Nat.zero_add, List.map_map]
    rfl
  have hTC : RewardCalculator.calculateTotalClaimed claims c d =
      .ok (natToString (((claims.filter (fun cl => jsNumberEqInt cl.campaign c)).map
        (fun cl => baseVal cl.amount d)).sum)) := by
    unfold RewardCalculator.calculateTotalClaimed
    rw [h0, sumAmounts_ok hC2 0, Nat.zero_add, List.map_map]
    rfl
  set sE := (proofs.map (fun p => baseVal p.amount d)).sum with hsE
  set sC := ((claims.filter (fun cl => jsNumberEqInt cl.campaign c)).map
    (fun cl => baseVal cl.amount d)).sum with hsC
  show (RewardCalculator.calculateTotalEligible proofs d).bind _ = _
  rw [hTE]
  show (RewardCalculator.calculateTotalClaimed claims c d).bind _ = _
  rw [hTC]
  show (RewardCalculator.calculateRemaining (natToString sE) (natToString sC)).bind _ = _
  unfold RewardCalculator.calculateRemaining
  rw [subtractBaseUnits_natToString]
  show (RewardCalculator.compareBaseUnits (natToString (sE - sC)) "0").bind _ = _
  rw [compareBaseUnits_natToString_zero]
  show Except.ok _ = _
  have hcc : decide ((0 : Int) < if 0 < sE - sC then 1 else 0) = decide (sC < sE) := by
    by_cases hlt : sC < sE
    · have hp : 0 < sE - sC := by omega
      simp [hp, hlt]
    · have hp : ¬ (0 < sE - sC) := by omega
      simp [hp, hlt]
  rw [hcc]

/-- Claim C1: for every list of eligibility records, list of historical
claims, target campaign `c` and precision `d`, `performCalculations` returns
`totalEligible` equal to the sum of `toBaseUnits(r.amount, d)` over all
eligibility records, `totalClaimed` equal to the sum over exactly those
historical claims whose `campaign` field is numerically equal to `c`,
`remaining` equal to `totalEligible - totalClaimed` floored at "0", and
`canClaim` true iff `remaining` is strictly positive (here under the success
hypothesis for the individual conversions, which is what "the sum of
toBaseUnits" presupposes); and in particular the aggregation example with
eligibility amounts "10" and "5", one historical claim of "3" on campaign
"1", target campaign 1 and precision 0 yields totalEligible "15",
totalClaimed "3", remaining "12" and canClaim true. -/
theorem claim_C1_performCalculations :
    (∀ (proofs : List ClaimProof) (claims : List ClaimReward) (c d : Int),
      (∀ p ∈ proofs, isOkE (RewardCalculator.toBaseUnits p.amount d) = true) →
      (∀ cl ∈ claims.filter (fun cl => jsNumberEqInt cl.campaign c),
        isOkE (RewardCalculator.toBaseUnits cl.amount d) = true) →
      RewardCalculator.performCalculations proofs claims c d = .ok
        { totalEligible := natToString ((proofs.map (fun p => baseVal p.amount d)).sum),
          totalClaimed := natToString (((claims.filter
            (fun cl => jsNumberEqInt cl.campaign c)).map (fun cl => baseVal cl.amount d)).sum),
          remaining := natToString ((proofs.map (fun p => baseVal p.amount d)).sum -
            ((claims.filter (fun cl => jsNumberEqInt cl.campaign c)).map
              (fun cl => baseVal cl.amount d)).sum),
          canClaim := decide ((((claims.filter (fun cl => jsNumberEqInt cl.campaign c)).map
            (fun cl => baseVal cl.amount d)).sum) <
            (proofs.map (fun p => baseVal p.amount d)).sum) }) ∧
    RewardCalculator.performCalculations
      [{ chainId := 146, lastBlockUpdatedTo := 0, user := "0xuser", campaignId := 1,
         amount := "10", proof := ["0xp"] },
       { chainId := 146, lastBlockUpdatedTo := 0, user := "0xuser", campaignId := 1,
         amount := "5", proof := ["0xp"] }]
      [{ id := "c1", user := "0xuser", amount := "3", campaign := "1", chainId := 146,
         timestamp := 0 }] 1 0 =
      .ok { totalEligible := "15", totalClaimed := "3", remaining := "12", canClaim := true } :=
  ⟨performCalculations_spec, by rfl⟩

/-- Witness for claim C1: the quantified part applied at a concrete input
with precision 6. -/
theorem claim_C1_witness :
    RewardCalculator.performCalculations
      [{ chainId := 1, lastBlockUpdatedTo := 0, user := "0xu", campaignId := 2,
         amount := "1.5", proof := ["0xp"] },
       { chainId := 1, lastBlockUpdatedTo := 0, user := "0xu", campaignId := 2,
         amount := "2", proof := ["0xp"] }]
      [{ id := "h1", user := "0xu", amount := "0.5", campaign := "2", chainId := 1,
         timestamp := 0 },
       { id := "h2", user := "0xu", amount := "9", campaign := "3", chainId := 1,
         timestamp := 0 }] 2 6 =
      .ok { totalEligible := "3500000", totalClaimed := "500000", remaining := "3000000",
            canClaim := true } := by
  have h := claim_C1_performCalculations.1
    [{ chainId := 1, lastBlockUpdatedTo := 0, user := "0xu", campaignId := 2,
       amount := "1.5", proof := ["0xp"] },
     { chainId := 1, lastBlockUpdatedTo := 0, user := "0xu", campaignId := 2,
       amount := "2", proof := ["0xp"] }]
    [{ id := "h1", user := "0xu", amount := "0.5", campaign := "2", chainId := 1,
       timestamp := 0 },
     { id := "h2", user := "0xu", amount := "9", campaign := "3", chainId := 1,
       timestamp := 0 }] 2 6 (by decide) (by decide)
  rw [h]
  rfl

/-- Claim C10: for every campaign id and precision in range,
`performCalculations` on empty eligibility and empty historical claims does
not raise and reports the zero balance with `canClaim = false`. -/
theorem claim_C10_empty_inputs : ∀ (c d : Int), 0 ≤ d → d ≤ 77 →
    RewardCalculator.performCalculations [] [] c d =
      .ok { totalEligible := "0", totalClaimed := "0", remaining := "0", canClaim := false } := by
  intro c d h1 h2
  rfl

/-- Witness for claim C10 at campaign 1, precision 18. -/
theorem claim_C10_witness :
    RewardCalculator.performCalculations [] [] 1 18 =
      .ok { totalEligible := "0", totalClaimed := "0", remaining := "0", canClaim := false } :=
  claim_C10_empty_inputs 1 18 (by decide) (by decide)

/-- Claim C6: `validateAmountsForOnChain` is true iff every element parses
(as a JS BigInt) to a non-negative integer not exceeding 2^256 - 1; a single
violating element makes the whole list false; in particular ["-1"] and
[2^256 as a decimal string] are false and ["0"] is true. -/
theorem claim_C6_validateAmounts :
    (∀ amounts : List String, RewardCalculator.validateAmountsForOnChain amounts = true ↔
      ∀ a ∈ amounts, ∃ v : Int, jsBigInt? a = some v ∧ 0 ≤ v ∧
        v ≤ RewardCalculator.MAX_UINT256) ∧
    RewardCalculator.validateAmountsForOnChain ["-1"] = false ∧
    RewardCalculator.validateAmountsForOnChain
      ["115792089237316195423570985008687907853269984665640564039457584007913129639936"]
      = false ∧
    RewardCalculator.validateAmountsForOnChain ["0"] = true := by
  refine ⟨?_, by decide, by decide, by decide⟩
  intro amounts
  unfold RewardCalculator.validateAmountsForOnChain
  rw [List.all_eq_true]
  constructor
  · intro h a ha
    have := h a ha
    cases hv : jsBigInt? a with
    | none => rw [hv] at this; exact absurd this (by simp)
    | some v =>
      rw [hv] at this
      simp only [Bool.and_eq_true, decide_eq_true_eq] at this
      exact ⟨v, rfl, this.1, this.2⟩
  · intro h a ha
    obtain ⟨v, hv, h1, h2⟩ := h a ha
    rw [hv]
    simp [h1, h2]

/-- Witness for claim C6: the characterization applied to the singleton
list ["5"]. -/
theorem claim_C6_witness : RewardCalculator.validateAmountsForOnChain ["5"] = true := by
  refine (claim_C6_validateAmounts.1 ["5"]).mpr ?_
  intro a ha
  rw [List.mem_singleton] at ha
  subst ha
  exact ⟨5, rfl, by decide, by decide⟩

/-- Claim C9: the pagination loops terminate and never continue past a page
that reports `hasNextPage = true` with a falsy cursor: on any response
sequence made of well-cursored intermediate pages followed by such an
inconsistent page, the loop returns exactly the records of the pages up to
and including it, ignoring everything after, and produces a value (no
exception is raised on this path).  Both `fetchAllClaimProofs` and
`fetchAllHistoricalClaims` are covered. -/
theorem claim_C9_pagination_safety :
    (∀ (pre : List ClaimProofsPage) (page : ClaimProofsPage) (rest : List ClaimProofsPage),
      (∀ q ∈ pre, q.pageInfo.hasNextPage = true ∧ cursorFalsy q.pageInfo.endCursor = false) →
      page.pageInfo.hasNextPage = true → cursorFalsy page.pageInfo.endCursor = true →
      SmartRewardsGraphQLClient.fetchAllClaimProofs (pre ++ page :: rest) =
        (pre.map (fun q => q.edges.map (fun e => e.node))).flatten ++
          page.edges.map (fun e => e.node)) ∧
    (∀ (pre : List ClaimRewardsPage) (page : ClaimRewardsPage) (rest : List ClaimRewardsPage),
      (∀ q ∈ pre, q.pageInfo.hasNextPage = true ∧ cursorFalsy q.pageInfo.endCursor = false) →
      page.pageInfo.hasNextPage = true → cursorFalsy page.pageInfo.endCursor = true →
      SmartRewardsGraphQLClient.fetchAllHistoricalClaims (pre ++ page :: rest) =
        (pre.map (fun q => q.edges.map (fun e => e.node))).flatten ++
          page.edges.map (fun e => e.node)) := by
  constructor
  · intro pre page rest hpre hnext hfalsy
    induction pre with
    | nil =>
      simp [SmartRewardsGraphQLClient.fetchAllClaimProofs, hnext, hfalsy]
    | cons q t ih =>
      obtain ⟨hq1, hq2⟩ := hpre q (by simp)
      simp only [List.cons_append, SmartRewardsGraphQLClient.fetchAllClaimProofs, hq1,
        hq2, if_true, Bool.false_eq_true, if_false, List.map_cons, List.flatten_cons,
        List.append_assoc, List.append_eq]
      rw [ih (fun x hx => hpre x (by simp [hx]))]
  · intro pre page rest hpre hnext hfalsy
    induction pre with
    | nil =>
      simp [SmartRewardsGraphQLClient.fetchAllHistoricalClaims, hnext, hfalsy]
    | cons q t ih =>
      obtain ⟨hq1, hq2⟩ := hpre q (by simp)
      simp only [List.cons_append, SmartRewardsGraphQLClient.fetchAllHistoricalClaims, hq1,
        hq2, if_true, Bool.false_eq_true, if_false, List.map_cons, List.flatten_cons,
        List.append_assoc, List.append_eq]
      rw [ih (fun x hx => hpre x (by simp [hx]))]

/-- Witness for claim C9: one well-cursored page followed by an inconsistent
page (hasNextPage true, absent cursor) and a trailing page that must be
ignored. -/
theorem claim_C9_witness :
    SmartRewardsGraphQLClient.fetchAllClaimProofs
      [⟨[⟨"a", ⟨1, 0, "u", 1, "1", ["p"]⟩⟩], ⟨true, some "a"⟩⟩,
       ⟨[⟨"b", ⟨1, 0, "u", 1, "2", ["p"]⟩⟩], ⟨true, none⟩⟩,
       ⟨[⟨"c", ⟨1, 0, "u", 1, "3", ["p"]⟩⟩], ⟨false, none⟩⟩] =
      [⟨1, 0, "u", 1, "1", ["p"]⟩, ⟨1, 0, "u", 1, "2", ["p"]⟩] := by
  have h := claim_C9_pagination_safety.1
    [⟨[⟨"a", ⟨1, 0, "u", 1, "1", ["p"]⟩⟩], ⟨true, some "a"⟩⟩]
    ⟨[⟨"b", ⟨1, 0, "u", 1, "2", ["p"]⟩⟩], ⟨true, none⟩⟩
    [⟨[⟨"c", ⟨1, 0, "u", 1, "3", ["p"]⟩⟩], ⟨false, none⟩⟩]
    (by decide) rfl rfl
  exact h


theorem buildArgsLoop_ok_shape : ∀ {proofs : List ClaimProof}
    {us : List String} {cs : List Int} {ams : List String} {ps : List (List String)},
    SmartRewarderOnChainClient.buildArgsLoop proofs = .ok (us, cs, ams, ps) →
    us = proofs.map (fun p => p.user) ∧ cs = proofs.map (fun p => p.campaignId) ∧
    ams = proofs.map (fun p => p.amount) ∧ ps = proofs.map (fun p => p.proof) := by
  intro proofs
  induction proofs with
  | nil =>
    intro us cs ams ps h
    simp only [SmartRewarderOnChainClient.buildArgsLoop, Except.ok.injEq,
      Prod.mk.injEq] at h
    obtain ⟨h1, h2, h3, h4⟩ := h
    subst h1; subst h2; subst h3; subst h4
    simp
  | cons p t ih =>
    intro us cs ams ps h
    unfold SmartRewarderOnChainClient.buildArgsLoop at h
    split at h
    · exact absurd h (by simp)
    · cases hb : SmartRewarderOnChainClient.buildArgsLoop t with
      | error e =>
        rw [hb] at h
        simp only [Bind.bind, Except.bind] at h
        exact absurd h (by simp)
      | ok tup =>
        obtain ⟨us2, cs2, ams2, ps2⟩ := tup
        rw [hb] at h
        simp only [Bind.bind, Except.bind, Pure.pure, Except.pure, Except.ok.injEq,
          Prod.mk.injEq] at h
        obtain ⟨h1, h2, h3, h4⟩ := h
        obtain ⟨g1, g2, g3, g4⟩ := ih hb
        subst h1; subst h2; subst h3; subst h4
        simp [g1, g2, g3, g4]

theorem buildArgsLoop_err_of_bad : ∀ {proofs : List ClaimProof},
    (∃ p ∈ proofs, p.user.data.isEmpty = true ∨ p.proof = []) →
    ∃ e, SmartRewarderOnChainClient.buildArgsLoop proofs = .error e := by
  intro proofs
  induction proofs with
  | nil => intro h; simp at h
  | cons p t ih =>
    intro h
    unfold SmartRewarderOnChainClient.buildArgsLoop
    by_cases hc : (p.user.data.isEmpty || p.proof.isEmpty) = true
    · rw [if_pos hc]
      exact ⟨_, rfl⟩
    · rw [if_neg hc]
      obtain ⟨q, hq, hbad⟩ := h
      have hqt : q ∈ t := by
        rcases List.mem_cons.mp hq with hq1 | hq1
        · subst hq1
          exfalso
          apply hc
          rcases hbad with hb1 | hb1
          · simp [hb1]
          · simp [hb1]
        · exact hq1
      obtain ⟨e, he⟩ := ih ⟨q, hqt, hbad⟩
      rw [he]
      exact ⟨e, rfl⟩

/-- Claim C4: `prepareClaimArgs` on `N` records either returns four sequences
of length exactly `N` where the i-th element of each comes from the i-th
input record (expressed by equality with the four projections, which fixes
both length and order) and the returned amounts satisfy
`validateAmountsForOnChain`; or it raises before any submission — in
particular it raises when some record has an empty user or an empty proof
array, and when the amounts fail the on-chain bound check. -/
theorem claim_C4_prepareClaimArgs : ∀ proofs : List ClaimProof,
    (∀ args, SmartRewarderOnChainClient.prepareClaimArgs proofs = .ok args →
      args.users = proofs.map (fun p => p.user) ∧
      args.campaignIds = proofs.map (fun p => p.campaignId) ∧
      args.amounts = proofs.map (fun p => p.amount) ∧
      args.proofs = proofs.map (fun p => p.proof) ∧
      RewardCalculator.validateAmountsForOnChain args.amounts = true) ∧
    ((∃ p ∈ proofs, p.user.data.isEmpty = true ∨ p.proof = []) →
      ∃ e, SmartRewarderOnChainClient.prepareClaimArgs proofs = .error e) ∧
    (RewardCalculator.validateAmountsForOnChain (proofs.map (fun p => p.amount)) = false →
      ∃ e, SmartRewarderOnChainClient.prepareClaimArgs proofs = .error e) := by
  intro proofs
  refine ⟨?_, ?_, ?_⟩
  · intro args h
    unfold SmartRewarderOnChainClient.prepareClaimArgs at h
    split at h
    · exact absurd h (by simp)
    · split at h
      · exact absurd h (by simp)
      · rename_i us cs ams ps heq
        obtain ⟨g1, g2, g3, g4⟩ := buildArgsLoop_ok_shape heq
        split at h
        · exact absurd h (by simp)
        · split at h
          · exact absurd h (by simp)
          · rename_i hvv
            have hval : RewardCalculator.validateAmountsForOnChain ams = true := by
              cases hx : RewardCalculator.validateAmountsForOnChain ams
              · exact absurd (by rw [hx]; rfl) hvv
              · rfl
            have hargs : args = ⟨us, cs, ams, ps⟩ := ((Except.ok.injEq _ _).mp h).symm
            subst hargs
            exact ⟨g1, g2, g3, g4, hval⟩
  · intro hbad
    unfold SmartRewarderOnChainClient.prepareClaimArgs
    split
    · exact ⟨_, rfl⟩
    · obtain ⟨e, he⟩ := buildArgsLoop_err_of_bad hbad
      rw [he]
      exact ⟨e, rfl⟩
  · intro hval
    unfold SmartRewarderOnChainClient.prepareClaimArgs
    split
    case isTrue hP =>
      rw [List.isEmpty_iff.mp hP] at hval
      simp [RewardCalculator.validateAmountsForOnChain] at hval
    case isFalse hP =>
      split
      · exact ⟨_, rfl⟩
      · rename_i us cs ams ps heq
        obtain ⟨g1, g2, g3, g4⟩ := buildArgsLoop_ok_shape heq
        subst g1; subst g2; subst g3; subst g4
        have hlen : ((proofs.map (fun p => p.user)).length !=
            (proofs.map (fun p => p.campaignId)).length ||
            (proofs.map (fun p => p.user)).length !=
            (proofs.map (fun p => p.amount)).length ||
            (proofs.map (fun p => p.user)).length !=
            (proofs.map (fun p => p.proof)).length) = false := by
          simp
        rw [hlen, if_neg (by simp), hval]
        exact ⟨_, rfl⟩

/-- Witness for claim C4: a record with an empty user makes the builder
raise. -/
theorem claim_C4_witness :
    ∃ e, SmartRewarderOnChainClient.prepareClaimArgs
      [⟨1, 0, "", 1, "1", ["p"]⟩] = .error e :=
  (claim_C4_prepareClaimArgs [⟨1, 0, "", 1, "1", ["p"]⟩]).2.1
    ⟨⟨1, 0, "", 1, "1", ["p"]⟩, by simp, Or.inl rfl⟩

/-- Claim C5 (amended): `validateClaimProofs` raises iff some record has a
user not case-insensitively equal to the expected user, or a campaign id
different from the expected one, or an empty proof array, or an amount that
is the empty string or whose `parseFloat` value is ≤ 0.  (The original claim
said "an amount that does not parse to a strictly positive number"; a
non-empty amount whose `parseFloat` is NaN — e.g. "abc" — is NOT rejected,
because `NaN <= 0` is false in JS.)  A single violating record fails the
whole batch, and the function only inspects the records (it is pure), so on
success they are kept exactly as supplied. -/
theorem claim_C5_validateClaimProofs_amended :
    ∀ (proofs : List ClaimProof) (u : String) (c : Int),
    (∃ e, RewardCalculator.validateClaimProofs proofs u c = .error e) ↔
    ∃ p ∈ proofs, jsToLower p.user ≠ jsToLower u ∨ p.campaignId ≠ c ∨ p.proof = [] ∨
      p.amount.data = [] ∨ jsParseFloatLeZero p.amount = true := by
  intro proofs u c
  induction proofs with
  | nil => simp [RewardCalculator.validateClaimProofs]
  | cons p t ih =>
    unfold RewardCalculator.validateClaimProofs
    by_cases h1 : (jsToLower p.user != jsToLower u) = true
    · rw [if_pos h1]
      constructor
      · intro _
        exact ⟨p, by simp, Or.inl (bne_iff_ne.mp h1)⟩
      · intro _
        exact ⟨_, rfl⟩
    · rw [if_neg h1]
      have h1e : jsToLower p.user = jsToLower u := by
        simpa [bne] using h1
      by_cases h2 : (p.campaignId != c) = true
      · rw [if_pos h2]
        constructor
        · intro _
          exact ⟨p, by simp, Or.inr (Or.inl (bne_iff_ne.mp h2))⟩
        · intro _
          exact ⟨_, rfl⟩
      · rw [if_neg h2]
        have h2e : p.campaignId = c := by
          simpa [bne] using h2
        by_cases h3 : p.proof.isEmpty = true
        · rw [if_pos h3]
          constructor
          · intro _
            exact ⟨p, by simp, Or.inr (Or.inr (Or.inl (List.isEmpty_iff.mp h3)))⟩
          · intro _
            exact ⟨_, rfl⟩
        · rw [if_neg h3]
          have h3e : p.proof ≠ [] := by
            intro hnil
            exact h3 (by simp [hnil])
          by_cases h4 : (p.amount.data.isEmpty || jsParseFloatLeZero p.amount) = true
          · rw [if_pos h4]
            constructor
            · intro _
              rcases Bool.or_eq_true_iff.mp h4 with h4a | h4b
              · exact ⟨p, by simp, Or.inr (Or.inr (Or.inr (Or.inl
                  (List.isEmpty_iff.mp h4a))))⟩
              · exact ⟨p, by simp, Or.inr (Or.inr (Or.inr (Or.inr h4b)))⟩
            · intro _
              exact ⟨_, rfl⟩
          · rw [if_neg h4]
            have h4b : (p.amount.data.isEmpty || jsParseFloatLeZero p.amount) = false := by
              simpa using h4
            have h4f := Bool.or_eq_false_iff.mp h4b
            rw [ih]
            constructor
            · rintro ⟨q, hq, hbad⟩
              exact ⟨q, by simp [hq], hbad⟩
            · rintro ⟨q, hq, hbad⟩
              rcases List.mem_cons.mp hq with rfl | hqt
              · exfalso
                rcases hbad with hb | hb | hb | hb | hb
                · exact hb h1e
                · exact hb h2e
                · exact h3e hb
                · have : q.amount.data.isEmpty = true := by simp [hb]
                  rw [h4f.1] at this
                  exact absurd this (by simp)
                · rw [h4f.2] at hb
                  exact absurd hb (by simp)
              · exact ⟨q, hqt, hbad⟩

/-- Counterexample for claim C5: a record whose amount "abc" does not parse
to a strictly positive number (parseFloat is NaN) but the batch passes
validation, contradicting the claimed iff. -/
theorem claim_C5_counterexample :
    RewardCalculator.validateClaimProofs
      [⟨1, 0, "alice", 7, "abc", ["p"]⟩] "alice" 7 = .ok () ∧
    jsParseFloatSign "abc" = none :=
  ⟨rfl, rfl⟩

/-- Witness for claim C5 (amended): a batch with a campaign-id mismatch is
rejected. -/
theorem claim_C5_witness :
    ∃ e, RewardCalculator.validateClaimProofs
      [⟨1, 0, "alice", 7, "1", ["p"]⟩] "alice" 8 = .error e :=
  (claim_C5_validateClaimProofs_amended [⟨1, 0, "alice", 7, "1", ["p"]⟩] "alice" 8).mpr
    ⟨⟨1, 0, "alice", 7, "1", ["p"]⟩, by simp, Or.inr (Or.inl (by decide))⟩

theorem all_digits_stripLeadingZeros (l : List Char) :
    (stripLeadingZeros l).all isDigitCh = l.all isDigitCh := by
  have hsplit := List.takeWhile_append_dropWhile (fun c => c == '0') l
  have htake : (l.takeWhile (fun c => c == '0')).all isDigitCh = true := by
    rw [List.all_eq_true]
    intro c hc
    have hz : c = '0' := by simpa using List.mem_takeWhile_imp hc
    subst hz; rfl
  cases hd : dropZeros l with
  | nil =>
    unfold dropZeros at hd
    have hl : l.all isDigitCh = true := by
      conv_lhs => rw [← hsplit, hd]
      simpa using htake
    have hz : isDigitCh '0' = true := rfl
    simp [stripLeadingZeros, hd, hl, dropZeros, hz]
  | cons a r =>
    unfold dropZeros at hd
    have : l.all isDigitCh = (a :: r).all isDigitCh := by
      conv_lhs => rw [← hsplit, hd]
      simp [List.all_append, htake]
    simp [stripLeadingZeros, dropZeros, hd, this]

/-- Claim C3 (amended): `toBaseUnits` raises a conversion error exactly when
the input string is empty, or JS `parseFloat` on it is NaN (it does not start
with a number), or the precision is outside `[0, 77]`, or the whole part
together with the fractional part padded/truncated to the precision contains
a non-digit; it never returns a partial result in those cases, and it is a
pure function so no state changes on an error.  (The original claim also
demanded an error for every string that is "not a well-formed numeric
decimal string, for example one with more than one dot": that is refuted by
the counterexample — segments after a second dot are silently dropped.) -/
theorem claim_C3_toBaseUnits_errors_amended : ∀ (s : String) (d : Int),
    (∃ e, RewardCalculator.toBaseUnits s d = .error e) ↔
    (s.data.isEmpty = true ∨ jsParseFloatNaN s = true ∨ d < 0 ∨ 77 < d ∨
      (wholeSegment s.data ++ paddedFracSegment s.data d.toNat).all isDigitCh = false) := by
  intro s d
  unfold RewardCalculator.toBaseUnits
  by_cases hA : (s.data.isEmpty || jsParseFloatNaN s) = true
  · rw [if_pos hA]
    constructor
    · intro _
      rcases Bool.or_eq_true_iff.mp hA with h | h
      · exact Or.inl h
      · exact Or.inr (Or.inl h)
    · intro _
      exact ⟨_, rfl⟩
  · rw [if_neg hA]
    have hAb : (s.data.isEmpty || jsParseFloatNaN s) = false := by
      cases hx : (s.data.isEmpty || jsParseFloatNaN s)
      · rfl
      · exact absurd hx hA
    have hAf := Bool.or_eq_false_iff.mp hAb
    by_cases hB : (decide (d < 0) || decide (d > 77)) = true
    · rw [if_pos hB]
      constructor
      · intro _
        rcases Bool.or_eq_true_iff.mp hB with h | h
        · exact Or.inr (Or.inr (Or.inl (of_decide_eq_true h)))
        · exact Or.inr (Or.inr (Or.inr (Or.inl (of_decide_eq_true h))))
      · intro _
        exact ⟨_, rfl⟩
    · rw [if_neg hB]
      have hBb : (decide (d < 0) || decide (d > 77)) = false := by
        cases hx : (decide (d < 0) || decide (d > 77))
        · rfl
        · exact absurd hx hB
      have hBf := Bool.or_eq_false_iff.mp hBb
      have hd1 : ¬ (d < 0) := of_decide_eq_false hBf.1
      have hd2 : ¬ (d > 77) := of_decide_eq_false hBf.2
      by_cases hC : (baseUnitsDigits s.data d.toNat).all isDigitCh = true
      · rw [if_pos hC]
        simp only [baseUnitsDigits, all_digits_stripLeadingZeros] at hC
        constructor
        · rintro ⟨e, he⟩
          exact absurd he (by simp)
        · rintro (h | h | h | h | h)
          · rw [hAf.1] at h; exact absurd h (by simp)
          · rw [hAf.2] at h; exact absurd h (by simp)
          · exact absurd h hd1
          · exact absurd h hd2
          · rw [hC] at h; exact absurd h (by simp)
      · rw [if_neg hC]
        simp only [baseUnitsDigits, all_digits_stripLeadingZeros] at hC
        constructor
        · intro _
          exact Or.inr (Or.inr (Or.inr (Or.inr (by simpa using hC))))
        · intro _
          exact ⟨_, rfl⟩

/-- Counterexample for claim C3: "1.2.3" has more than one dot (two dots, as
the second conjunct records) and so the claim says `toBaseUnits` must raise a
conversion error on it, but at precision 0 the code returns the partial
result "1" — the `split('.')` destructuring silently drops the third
segment. -/
theorem claim_C3_counterexample :
    RewardCalculator.toBaseUnits "1.2.3" 0 = .ok "1" ∧
    ("1.2.3".data.filter (fun c => c == '.')).length = 2 :=
  ⟨rfl, rfl⟩

/-- Witness for claim C3 (amended): "abc" fails `parseFloat` and raises. -/
theorem claim_C3_witness :
    ∃ e, RewardCalculator.toBaseUnits "abc" 0 = .error e :=
  (claim_C3_toBaseUnits_errors_amended "abc" 0).mpr (Or.inr (Or.inl rfl))

theorem noSuperfluousZeros_cases {s : String} (h : noSuperfluousZeros s = true) :
    s.data = ['0'] ∨ s.data.head? ≠ some '0' := by
  unfold noSuperfluousZeros at h
  match hd : s.data with
  | [] => rw [hd] at h; exact absurd h (by simp)
  | c :: rest =>
    rw [hd] at h
    rcases Bool.or_eq_true_iff.mp h with h1 | h1
    · right
      simp only [List.head?_cons, ne_eq, Option.some.injEq]
      exact bne_iff_ne.mp h1
    · by_cases hc : c = '0'
      · left
        rw [List.isEmpty_iff.mp h1, hc]
      · right
        simp only [List.head?_cons, ne_eq, Option.some.injEq]
        exact hc

theorem isBaseUnitString_parts {s : String} (h : isBaseUnitString s = true) :
    s.data ≠ [] ∧ s.data.all isDigitCh = true := by
  unfold isBaseUnitString at h
  simp only [Bool.and_eq_true] at h
  refine ⟨?_, h.2⟩
  intro hnil
  have h1 : s.data.isEmpty = false := by simpa using h.1
  rw [hnil] at h1
  simp at h1

theorem jsBigInt_baseUnit {s : String} (h : isBaseUnitString s = true) :
    jsBigInt? s = some (Int.ofNat (valDigits s.data)) := by
  obtain ⟨h0, hd⟩ := isBaseUnitString_parts h
  exact jsBigInt_str s ▸ jsBigInt_digit_string h0 hd

/-- Claim C7: for digit-only base-unit strings with no superfluous leading
zeros, `subtractBaseUnits(addBaseUnits(a, b), b)` returns `a` exactly; and
`subtractBaseUnits` never yields a negative result — whenever the integer
value of `b` exceeds that of `a`, it returns "0". -/
theorem claim_C7_additive_inverse :
    (∀ a b : String, isBaseUnitString a = true → isBaseUnitString b = true →
      noSuperfluousZeros a = true → noSuperfluousZeros b = true →
      ∃ s, RewardCalculator.addBaseUnits a b = .ok s ∧
        RewardCalculator.subtractBaseUnits s b = .ok a) ∧
    (∀ a b : String, isBaseUnitString a = true → isBaseUnitString b = true →
      valDigits a.data < valDigits b.data →
      RewardCalculator.subtractBaseUnits a b = .ok "0") := by
  constructor
  · intro a b ha hb hza hzb
    have hpa := jsBigInt_baseUnit ha
    have hpb := jsBigInt_baseUnit hb
    set va := valDigits a.data with hva
    set vb := valDigits b.data with hvb
    refine ⟨natToString (va + vb), ?_, ?_⟩
    · unfold RewardCalculator.addBaseUnits
      rw [hpa, hpb]
      show Except.ok (bigIntToString (Int.ofNat (va + vb))) = _
      rw [bigIntToString_ofNat]
    · unfold RewardCalculator.subtractBaseUnits
      rw [jsBigInt_natToString, hpb]
      have hsub : (Int.ofNat (va + vb) - Int.ofNat vb : Int) = Int.ofNat va := by
        simp only [Int.ofNat_eq_coe]
        omega
      have hnoneg : ¬ ((Int.ofNat (va + vb) - Int.ofNat vb : Int) < 0) := by
        rw [hsub]
        simp only [Int.ofNat_eq_coe]
        omega
      show Except.ok (if (Int.ofNat (va + vb) - Int.ofNat vb : Int) < 0 then "0"
        else bigIntToString (Int.ofNat (va + vb) - Int.ofNat vb)) = _
      rw [if_neg hnoneg, hsub, bigIntToString_ofNat]
      obtain ⟨h0, hdig⟩ := isBaseUnitString_parts ha
      rw [natToString_valDigits h0 hdig (noSuperfluousZeros_cases hza)]
  · intro a b ha hb hlt
    unfold RewardCalculator.subtractBaseUnits
    rw [jsBigInt_baseUnit ha, jsBigInt_baseUnit hb]
    have hneg : (Int.ofNat (valDigits a.data) - Int.ofNat (valDigits b.data) : Int) < 0 := by
      simp only [Int.ofNat_eq_coe]
      omega
    show Except.ok (if (Int.ofNat (valDigits a.data) - Int.ofNat (valDigits b.data) : Int) < 0
      then "0" else _) = _
    rw [if_pos hneg]

/-- Witness for claim C7: round trip at a = "12", b = "5", and the floor at
zero for a = "3", b = "7". -/
theorem claim_C7_witness :
    (∃ s, RewardCalculator.addBaseUnits "12" "5" = .ok s ∧
      RewardCalculator.subtractBaseUnits s "5" = .ok "12") ∧
    RewardCalculator.subtractBaseUnits "3" "7" = .ok "0" :=
  ⟨claim_C7_additive_inverse.1 "12" "5" (by decide) (by decide) (by decide) (by decide),
   claim_C7_additive_inverse.2 "3" "7" (by decide) (by decide) (by decide)⟩

/-! ### Stable sort facts -/

theorem jsSortInsert_perm {α : Type} (le : α → α → Bool) (a : α) (l : List α) :
    (jsSortInsert le a l).Perm (a :: l) := by
  induction l with
  | nil => exact List.Perm.refl _
  | cons b t ih =>
    unfold jsSortInsert
    by_cases h : le a b = true
    · rw [if_pos h]
    · rw [if_neg h]
      exact (ih.cons b).trans (List.Perm.swap a b t)

theorem jsStableSort_perm {α : Type} (le : α → α → Bool) (l : List α) :
    (jsStableSort le l).Perm l := by
  induction l with
  | nil => exact List.Perm.refl _
  | cons a t ih =>
    exact (jsSortInsert_perm le a (jsStableSort le t)).trans (ih.cons a)

theorem jsSortInsert_pairwise {α : Type} {le : α → α → Bool}
    (htrans : ∀ x y z, le x y = true → le y z = true → le x z = true)
    (htotal : ∀ x y, (le x y || le y x) = true)
    {a : α} {l : List α} (hl : l.Pairwise (fun x y => le x y = true)) :
    (jsSortInsert le a l).Pairwise (fun x y => le x y = true) := by
  induction l with
  | nil => simp [jsSortInsert]
  | cons b t ih =>
    rcases List.pairwise_cons.mp hl with ⟨hbt, htp⟩
    unfold jsSortInsert
    by_cases h : le a b = true
    · rw [if_pos h]
      refine List.pairwise_cons.mpr ⟨?_, hl⟩
      intro x hx
      rcases List.mem_cons.mp hx with rfl | hxt
      · exact h
      · exact htrans a b x h (hbt x hxt)
    · rw [if_neg h]
      refine List.pairwise_cons.mpr ⟨?_, ih htp⟩
      intro x hx
      have := (jsSortInsert_perm le a t).mem_iff.mp hx
      rcases List.mem_cons.mp this with rfl | hxt
      · rcases Bool.or_eq_true_iff.mp (htotal x b) with h1 | h1
        · exact absurd h1 h
        · exact h1
      · exact hbt x hxt

theorem jsStableSort_pairwise {α : Type} {le : α → α → Bool}
    (htrans : ∀ x y z, le x y = true → le y z = true → le x z = true)
    (htotal : ∀ x y, (le x y || le y x) = true) (l : List α) :
    (jsStableSort le l).Pairwise (fun x y => le x y = true) := by
  induction l with
  | nil => simp [jsStableSort]
  | cons a t ih => exact jsSortInsert_pairwise htrans htotal ih

theorem decimalLe_trans {x y z : String} (h1 : decimalLe x y = true)
    (h2 : decimalLe y z = true) : decimalLe x z = true := by
  unfold decimalLe at h1 h2 ⊢
  rw [decide_eq_true_iff] at h1 h2 ⊢
  set px := (decimalVal x).getD (0, 0)
  set py := (decimalVal y).getD (0, 0)
  set pz := (decimalVal z).getD (0, 0)
  have hmul1 : px.1 * 10 ^ py.2 * 10 ^ pz.2 ≤ py.1 * 10 ^ px.2 * 10 ^ pz.2 :=
    Nat.mul_le_mul_right _ h1
  have hmul2 : py.1 * 10 ^ pz.2 * 10 ^ px.2 ≤ pz.1 * 10 ^ py.2 * 10 ^ px.2 :=
    Nat.mul_le_mul_right _ h2
  have hchain : px.1 * 10 ^ pz.2 * 10 ^ py.2 ≤ pz.1 * 10 ^ px.2 * 10 ^ py.2 := by
    calc px.1 * 10 ^ pz.2 * 10 ^ py.2 = px.1 * 10 ^ py.2 * 10 ^ pz.2 := by ring
    _ ≤ py.1 * 10 ^ px.2 * 10 ^ pz.2 := hmul1
    _ = py.1 * 10 ^ pz.2 * 10 ^ px.2 := by ring
    _ ≤ pz.1 * 10 ^ py.2 * 10 ^ px.2 := hmul2
    _ = pz.1 * 10 ^ px.2 * 10 ^ py.2 := by ring
  have hpos : 0 < 10 ^ py.2 := Nat.pos_pow_of_pos _ (by norm_num)
  exact Nat.le_of_mul_le_mul_right hchain hpos

theorem decimalLe_total (x y : String) : (decimalLe x y || decimalLe y x) = true := by
  unfold decimalLe
  rcases Nat.le_total (((decimalVal x).getD (0, 0)).1 * 10 ^ ((decimalVal y).getD (0, 0)).2)
    (((decimalVal y).getD (0, 0)).1 * 10 ^ ((decimalVal x).getD (0, 0)).2) with h | h
  · rw [Bool.or_eq_true_iff]
    exact Or.inl (decide_eq_true h)
  · rw [Bool.or_eq_true_iff]
    exact Or.inr (decide_eq_true h)

theorem entryLe_trans (a b c : ClaimableCampaignEntry)
    (h1 : SteerClient.entryLe a b = true) (h2 : SteerClient.entryLe b c = true) :
    SteerClient.entryLe a c = true := by
  unfold SteerClient.entryLe at h1 h2 ⊢
  cases hA : a.canClaim <;> cases hB : b.canClaim <;> cases hC : c.canClaim <;>
    simp [hA, hB, hC] at h1 h2 ⊢ <;>
    exact decimalLe_trans h2 h1

theorem entryLe_total (a b : ClaimableCampaignEntry) :
    (SteerClient.entryLe a b || SteerClient.entryLe b a) = true := by
  unfold SteerClient.entryLe
  cases hA : a.canClaim <;> cases hB : b.canClaim <;> simp [hA, hB] <;>
    first
      | exact Bool.or_eq_true_iff.mp (decimalLe_total b.remaining a.remaining)
      | exact Bool.or_eq_true_iff.mp (decimalLe_total a.remaining b.remaining)
      | exact Or.symm (Bool.or_eq_true_iff.mp (decimalLe_total a.remaining b.remaining))

theorem perCampaign_some_campaign {reconcile : Campaign → Except String ClaimCalculations}
    {cam : Campaign} {entry : ClaimableCampaignEntry}
    (h : SteerClient.perCampaign reconcile cam = some entry) : entry.campaign = cam := by
  unfold SteerClient.perCampaign at h
  split at h
  · exact absurd h (by simp)
  · split at h
    · exact absurd h (by simp)
    · have := (Option.some.injEq _ _).mp h
      rw [← this]

theorem perCampaign_none_of_error {reconcile : Campaign → Except String ClaimCalculations}
    {cam : Campaign} {e : String} (h : reconcile cam = .error e) :
    SteerClient.perCampaign reconcile cam = none := by
  unfold SteerClient.perCampaign
  rw [h]

/-- Claim C8 (amended): `getUserClaimableCampaigns` reconciles each campaign
in sequence; the result is a permutation of the per-campaign results of the
non-throwing campaigns (so a campaign whose reconciliation throws is skipped
and every other campaign appears with its correctly reconciled calculations
and formatted remaining amount), and the final list is sorted claimable
campaigns first and, within equal claimability, by NON-INCREASING (not
strictly decreasing — ties are possible and keep an arbitrary relative
order) `parseFloat` value of the remaining amount. -/
theorem claim_C8_getUserClaimableCampaigns :
    ∀ (reconcile : Campaign → Except String ClaimCalculations) (campaigns : List Campaign),
      (SteerClient.getUserClaimableCampaigns reconcile campaigns).Perm
        (campaigns.filterMap (SteerClient.perCampaign reconcile)) ∧
      (∀ cam ∈ campaigns, (∃ e, reconcile cam = .error e) →
        ∀ entry ∈ SteerClient.getUserClaimableCampaigns reconcile campaigns,
          entry.campaign ≠ cam) ∧
      (∀ cam ∈ campaigns, ∀ cc fmt, reconcile cam = .ok cc →
        RewardCalculator.formatCalculations cc cam.rewardToken.decimals = .ok fmt →
        ({ campaign := cam, canClaim := cc.canClaim, remaining := fmt.remaining,
           calculations := cc } : ClaimableCampaignEntry) ∈
          SteerClient.getUserClaimableCampaigns reconcile campaigns) ∧
      (SteerClient.getUserClaimableCampaigns reconcile campaigns).Pairwise
        (fun x y => (y.canClaim = true → x.canClaim = true) ∧
          (x.canClaim = y.canClaim → decimalLe y.remaining x.remaining = true)) := by
  intro reconcile campaigns
  have hperm : (SteerClient.getUserClaimableCampaigns reconcile campaigns).Perm
      (campaigns.filterMap (SteerClient.perCampaign reconcile)) :=
    jsStableSort_perm _ _
  refine ⟨hperm, ?_, ?_, ?_⟩
  · rintro cam hcam ⟨e, he⟩ entry hentry heq
    have hmem := hperm.mem_iff.mp hentry
    obtain ⟨cam2, hcam2, hsome⟩ := List.mem_filterMap.mp hmem
    have : entry.campaign = cam2 := perCampaign_some_campaign hsome
    rw [heq] at this
    subst this
    rw [perCampaign_none_of_error he] at hsome
    exact absurd hsome (by simp)
  · intro cam hcam cc fmt hok hfmt
    apply hperm.mem_iff.mpr
    apply List.mem_filterMap.mpr
    refine ⟨cam, hcam, ?_⟩
    unfold SteerClient.perCampaign
    rw [hok]
    simp [hfmt]
  · have hpw := jsStableSort_pairwise entryLe_trans
      (fun x y => entryLe_total x y)
      (campaigns.filterMap (SteerClient.perCampaign reconcile))
    apply List.Pairwise.imp ?_ hpw
    intro x y hxy
    unfold SteerClient.entryLe at hxy
    constructor
    · intro hyc
      by_cases hx : x.canClaim = true
      · exact hx
      · have hxf : x.canClaim = false := by
          cases hv : x.canClaim
          · rfl
          · exact absurd hv hx
        rw [hxf, hyc] at hxy
        simp at hxy
    · intro hxyeq
      rw [hxyeq, bne_self_eq_false] at hxy
      simpa using hxy

/-- Counterexample to claim C8 as stated: two campaigns that both reconcile
to the same claimable calculations end up as two adjacent claimable entries
with EQUAL remaining amounts ("1" and "1"), so the result is not sorted by
strictly descending remaining amount within the claimable group. -/
theorem claim_C8_counterexample :
    SteerClient.getUserClaimableCampaigns
      (fun _ => Except.ok ⟨"1", "0", "1", true⟩) [⟨1, ⟨0⟩⟩, ⟨2, ⟨0⟩⟩] =
      [⟨⟨1, ⟨0⟩⟩, true, "1", ⟨"1", "0", "1", true⟩⟩,
       ⟨⟨2, ⟨0⟩⟩, true, "1", ⟨"1", "0", "1", true⟩⟩] ∧
    decimalLt "1" "1" = false :=
  ⟨rfl, rfl⟩

/-- Witness for claim C8 (amended): with an oracle that throws on campaign 1
and reconciles campaign 2, the reconciled entry for campaign 2 is in the
result. -/
theorem claim_C8_witness :
    ({ campaign := ⟨2, ⟨0⟩⟩, canClaim := true, remaining := "1",
       calculations := ⟨"2", "1", "1", true⟩ } : ClaimableCampaignEntry) ∈
      SteerClient.getUserClaimableCampaigns
        (fun cam => if cam.campaignId == 1 then Except.error "no eligibility records"
          else Except.ok ⟨"2", "1", "1", true⟩) [⟨1, ⟨0⟩⟩, ⟨2, ⟨0⟩⟩] :=
  (claim_C8_getUserClaimableCampaigns
    (fun cam => if cam.campaignId == 1 then Except.error "no eligibility records"
      else Except.ok ⟨"2", "1", "1", true⟩) [⟨1, ⟨0⟩⟩, ⟨2, ⟨0⟩⟩]).2.2.1
    ⟨2, ⟨0⟩⟩ (by simp) ⟨"2", "1", "1", true⟩ ⟨"2", "1", "1", true⟩ rfl rfl

/-! ### Round-trip support -/

theorem dropWhile_append_of_ne_nil {α : Type} {p : α → Bool} {l r : List α}
    (h : l.dropWhile p ≠ []) : (l ++ r).dropWhile p = l.dropWhile p ++ r := by
  induction l with
  | nil => exact absurd rfl h
  | cons a t ih =>
    by_cases hp : p a = true
    · rw [List.cons_append, List.dropWhile_cons, if_pos hp]
      rw [List.dropWhile_cons, if_pos hp] at h ⊢
      exact ih h
    · rw [List.cons_append, List.dropWhile_cons, if_neg hp,
        List.dropWhile_cons, if_neg hp]
      rfl

theorem dropWhile_eq_nil_imp {α : Type} {p : α → Bool} {l : List α}
    (h : l.dropWhile p = []) : ∀ c ∈ l, p c = true := by
  intro c hc
  have hsplit := List.takeWhile_append_dropWhile p l
  rw [h, List.append_nil] at hsplit
  exact List.mem_takeWhile_imp (hsplit ▸ hc)

theorem wholeSegment_dotted (w f : List Char) (hwd : ∀ c ∈ w, isDigitCh c = true) :
    wholeSegment (w ++ '.' :: f) = w := by
  unfold wholeSegment
  rw [takeWhile_append_of_all (fun c hc => digit_bne_dot (hwd c hc))]
  rw [List.takeWhile_cons]
  simp

theorem fracSegment_dotted (w f : List Char) (hwd : ∀ c ∈ w, isDigitCh c = true)
    (hfd : ∀ c ∈ f, isDigitCh c = true) : fracSegment (w ++ '.' :: f) = f := by
  unfold fracSegment
  rw [dropWhile_append_of_all (fun c hc => digit_bne_dot (hwd c hc))]
  rw [List.dropWhile_cons]
  simp only [show (('.' : Char) != '.') = false from rfl, Bool.false_eq_true, if_false,
    List.drop_succ_cons, List.drop_zero]
  exact takeWhile_eq_self_of_all (fun c hc => digit_bne_dot (hfd c hc))

theorem wholeSegment_plain (w : List Char) (hwd : ∀ c ∈ w, isDigitCh c = true) :
    wholeSegment w = w :=
  takeWhile_eq_self_of_all (fun c hc => digit_bne_dot (hwd c hc))

theorem fracSegment_plain (w : List Char) (hwd : ∀ c ∈ w, isDigitCh c = true) :
    fracSegment w = [] := by
  unfold fracSegment
  rw [dropWhile_eq_nil_of_all (fun c hc => digit_bne_dot (hwd c hc))]
  rfl

theorem paddedFracSegment_of_frac {cs : List Char} {f : List Char} {dn : Nat}
    (hf : fracSegment cs = f) (hlen : f.length ≤ dn) :
    paddedFracSegment cs dn = f ++ List.replicate (dn - f.length) '0' := by
  unfold paddedFracSegment
  rw [hf]
  apply List.take_of_length_le
  simp only [List.length_append, List.length_replicate]
  omega

theorem jsParseFloatNaN_digit_head {s : String} {c : Char} {rest : List Char}
    (hd : s.data = c :: rest) (hc : isDigitCh c = true) : jsParseFloatNaN s = false := by
  have hws := jsWhitespace_eq_false_of_digit hc
  have hminus : (c == '-') = false := beq_false_of_isDigitCh_of_not '-' hc (by decide)
  have hplus : (c == '+') = false := beq_false_of_isDigitCh_of_not '+' hc (by decide)
  have hInf : (('I' : Char) == c) = false := by
    apply beq_eq_false_iff_ne.mpr
    intro h
    rw [← h] at hc
    exact absurd hc (by decide)
  unfold jsParseFloatNaN jsParseFloatSign
  rw [hd]
  rw [List.dropWhile_cons, hws]
  simp only [Bool.false_eq_true, if_false, hminus, hplus]
  rw [show List.isPrefixOf "Infinity".data (c :: rest) = false by
    simp [List.isPrefixOf, hInf]]
  simp only [Bool.false_eq_true, if_false]
  rw [List.takeWhile_cons, if_pos hc]
  simp only [List.isEmpty_cons, Bool.false_and, Bool.false_eq_true, if_false]
  split <;> rfl

theorem toBaseUnits_wf (w f : List Char) (hw : w ≠ [])
    (hwd : ∀ c ∈ w, isDigitCh c = true) (hfd : ∀ c ∈ f, isDigitCh c = true)
    (d : Int) (h0 : 0 ≤ d) (h77 : d ≤ 77) (hlen : f.length ≤ d.toNat) (s : String)
    (hs : s.data = w ++ '.' :: f ∨ (s.data = w ∧ f = [])) :
    RewardCalculator.toBaseUnits s d =
      .ok ⟨stripLeadingZeros (w ++ (f ++ List.replicate (d.toNat - f.length) '0'))⟩ := by
  obtain ⟨c, w0, rfl⟩ : ∃ c w0, w = c :: w0 := by
    match w, hw with
    | c :: w0, _ => exact ⟨c, w0, rfl⟩
  have hc : isDigitCh c = true := hwd c (by simp)
  have hhead : ∃ rest, s.data = c :: rest := by
    rcases hs with h | ⟨h, _⟩
    · exact ⟨w0 ++ '.' :: f, by rw [h]; rfl⟩
    · exact ⟨w0, h⟩
  obtain ⟨rest, hrest⟩ := hhead
  have hnan : jsParseFloatNaN s = false := jsParseFloatNaN_digit_head hrest hc
  have hne : s.data.isEmpty = false := by rw [hrest]; rfl
  have hwhole : wholeSegment s.data = c :: w0 := by
    rcases hs with h | ⟨h, hf⟩
    · rw [h]; exact wholeSegment_dotted _ _ hwd
    · rw [h]; exact wholeSegment_plain _ hwd
  have hfrac : fracSegment s.data = f := by
    rcases hs with h | ⟨h, hf⟩
    · rw [h]; exact fracSegment_dotted _ _ hwd hfd
    · rw [h, hf]; exact fracSegment_plain _ hwd
  have hpad : paddedFracSegment s.data d.toNat =
      f ++ List.replicate (d.toNat - f.length) '0' :=
    paddedFracSegment_of_frac hfrac hlen
  have hall : (baseUnitsDigits s.data d.toNat).all isDigitCh = true := by
    unfold baseUnitsDigits
    rw [all_digits_stripLeadingZeros, hwhole, hpad, List.all_eq_true]
    intro x hx
    rcases List.mem_append.mp hx with hx1 | hx1
    · exact hwd x hx1
    · rcases List.mem_append.mp hx1 with hx2 | hx2
      · exact hfd x hx2
      · rw [List.eq_of_mem_replicate hx2]; rfl
  unfold RewardCalculator.toBaseUnits
  rw [hne, hnan]
  simp only [Bool.or_self, Bool.false_eq_true, if_false]
  have hrange : (decide (d < 0) || decide (d > 77)) = false := by
    rw [decide_eq_false (by omega : ¬ (d < 0)), decide_eq_false (by omega : ¬ (d > 77))]
    rfl
  rw [hrange]
  simp only [Bool.false_eq_true, if_false]
  rw [if_pos hall]
  unfold baseUnitsDigits
  rw [hwhole, hpad]


theorem stripLeadingZeros_of_cons {l : List Char} {x : Char} {xs : List Char}
    (h : dropZeros l = x :: xs) : stripLeadingZeros l = x :: xs := by
  simp [stripLeadingZeros, h]

theorem stripLeadingZeros_of_nil {l : List Char} (h : dropZeros l = []) :
    stripLeadingZeros l = ['0'] := by
  simp [stripLeadingZeros, h]

theorem fbu_large (w2 p : List Char) (dn : Nat) (hw : w2 ≠ []) (hp : p.length = dn) :
    fbuWholePart (w2 ++ p) dn = w2 ∧ fbuFracPart (w2 ++ p) dn = p := by
  have hw1 : 1 ≤ w2.length := by
    cases w2 with
    | nil => exact absurd rfl hw
    | cons a t => simp
  have hlen : (w2 ++ p).length = w2.length + dn := by
    rw [List.length_append, hp]
  have hpadded : fbuPadded (w2 ++ p) dn = w2 ++ p := by
    unfold fbuPadded
    rw [hlen, show dn + 1 - (w2.length + dn) = 0 by omega]
    rfl
  have hwl : fbuWholeLen (w2 ++ p) dn = w2.length := by
    unfold fbuWholeLen
    rw [hpadded, hlen]
    omega
  have htake : (fbuPadded (w2 ++ p) dn).take (fbuWholeLen (w2 ++ p) dn) = w2 := by
    rw [hpadded, hwl, List.take_left]
  constructor
  · unfold fbuWholePart
    rw [htake, if_neg (by simp [hw])]
  · unfold fbuFracPart
    rw [hpadded, hwl, List.drop_left]

theorem fbu_small (r : List Char) (dn : Nat) (h1 : 1 ≤ dn) (hr : r ≠ [])
    (hlen : r.length ≤ dn) :
    fbuWholePart r dn = ['0'] ∧
    fbuFracPart r dn = List.replicate (dn - r.length) '0' ++ r := by
  have hk : dn + 1 - r.length = (dn - r.length) + 1 := by omega
  have hpadded : fbuPadded r dn = '0' :: (List.replicate (dn - r.length) '0' ++ r) := by
    unfold fbuPadded
    rw [hk, List.replicate_succ]
    rfl
  have hplen : (fbuPadded r dn).length = dn + 1 := by
    rw [hpadded]
    simp only [List.length_cons, List.length_append, List.length_replicate]
    omega
  have hwl : fbuWholeLen r dn = 1 := by
    unfold fbuWholeLen
    rw [hplen]
    omega
  constructor
  · unfold fbuWholePart
    rw [hwl, hpadded]
    rw [show ('0' :: (List.replicate (dn - r.length) '0' ++ r)).take 1 = ['0'] from rfl]
    rfl
  · unfold fbuFracPart
    rw [hwl, hpadded]
    rfl

theorem canonicalDec_of_trim_nil {w f : List Char} (h : trimTrailingZeros f = []) :
    canonicalDec w f = ⟨stripLeadingZeros w⟩ := by
  simp [canonicalDec, h]

theorem canonicalDec_of_trim_cons {w f : List Char} {t0 : Char} {ts : List Char}
    (h : trimTrailingZeros f = t0 :: ts) :
    canonicalDec w f = ⟨stripLeadingZeros w ++ '.' :: (t0 :: ts)⟩ := by
  simp [canonicalDec, h]

theorem fromBaseUnits_round {b : String} (w f : List Char) (hw : w ≠ [])
    (hwd : ∀ c ∈ w, isDigitCh c = true) (hfd : ∀ c ∈ f, isDigitCh c = true)
    (d : Int) (h0 : 0 ≤ d) (h77 : d ≤ 77) (hlen : f.length ≤ d.toNat)
    (hb : b.data = stripLeadingZeros (w ++ (f ++ List.replicate (d.toNat - f.length) '0'))) :
    RewardCalculator.fromBaseUnits b d = .ok (canonicalDec w f) := by
  set p := f ++ List.replicate (d.toNat - f.length) '0' with hpdef
  have hpdig : ∀ c ∈ p, isDigitCh c = true := by
    intro c hc
    rcases List.mem_append.mp hc with h | h
    · exact hfd c h
    · rw [List.eq_of_mem_replicate h]; rfl
  have hwpdig : ∀ c ∈ w ++ p, isDigitCh c = true := by
    intro c hc
    rcases List.mem_append.mp hc with h | h
    · exact hwd c h
    · exact hpdig c h
  have hplen : p.length = d.toNat := by
    rw [hpdef]
    simp only [List.length_append, List.length_replicate]
    omega
  have hrne : b.data ≠ [] := by rw [hb]; exact stripLeadingZeros_ne_nil _
  have hrdig : b.data.all isDigitCh = true := by
    rw [hb, all_digits_stripLeadingZeros, List.all_eq_true]
    exact hwpdig
  have hcond1 : (b.data.isEmpty || !(b.data.all isDigitCh)) = false := by
    rw [hrdig]
    cases hr2 : b.data with
    | nil => exact absurd hr2 hrne
    | cons a t => rfl
  have hrange : (decide (d < 0) || decide (d > 77)) = false := by
    rw [decide_eq_false (by omega : ¬ (d < 0)), decide_eq_false (by omega : ¬ (d > 77))]
    rfl
  unfold RewardCalculator.fromBaseUnits
  rw [hcond1, hrange]
  simp only [Bool.false_eq_true, if_false]
  by_cases hd0 : d = 0
  · rw [if_pos hd0]
    have htn : d.toNat = 0 := by omega
    have hf0 : f = [] := by
      have : f.length = 0 := by omega
      exact List.length_eq_zero.mp this
    have hp0 : p = [] := by
      rw [hpdef, hf0, htn]
      rfl
    have htf : trimTrailingZeros f = [] := by rw [hf0]; rfl
    rw [canonicalDec_of_trim_nil htf]
    congr 1
    apply String.ext
    rw [hb, hp0, List.append_nil]
  · rw [if_neg hd0]
    have hdn1 : 1 ≤ d.toNat := by omega
    cases hA : dropZeros w with
    | cons a as =>
      have hdz : dropZeros (w ++ p) = a :: (as ++ p) := by
        unfold dropZeros at hA ⊢
        rw [dropWhile_append_of_ne_nil (by rw [hA]; simp), hA]
        rfl
      have hbdata : b.data = (a :: as) ++ p := by
        rw [hb, stripLeadingZeros_of_cons hdz]
        rfl
      obtain ⟨hWP, hFP⟩ := fbu_large (a :: as) p d.toNat (by simp) hplen
      rw [hbdata, hFP, trimTrailingZeros_append_replicate]
      cases ht : trimTrailingZeros f with
      | nil =>
        simp only [List.isEmpty_nil, if_true]
        rw [hWP, canonicalDec_of_trim_nil ht, stripLeadingZeros_of_cons hA]
      | cons t0 ts =>
        simp only [List.isEmpty_cons, Bool.false_eq_true, if_false]
        rw [hWP, canonicalDec_of_trim_cons ht, stripLeadingZeros_of_cons hA]
    | nil =>
      have hwz : ∀ c ∈ w, (c == '0') = true := dropWhile_eq_nil_imp hA
      have hdz : dropZeros (w ++ p) = dropZeros p := by
        unfold dropZeros
        exact dropWhile_append_of_all hwz
      cases hB : dropZeros p with
      | cons x xs =>
        have hbdata : b.data = x :: xs := by
          rw [hb, stripLeadingZeros_of_cons (by rw [hdz, hB])]
        have hsplit : p.takeWhile (fun c => c == '0') ++ (x :: xs) = p := by
          have h1 := List.takeWhile_append_dropWhile (fun c => c == '0') p
          unfold dropZeros at hB
          rw [hB] at h1
          exact h1
        have hrlen : (x :: xs).length ≤ d.toNat := by
          have := congrArg List.length hsplit
          simp only [List.length_append] at this
          omega
        obtain ⟨hWP, hFP⟩ := fbu_small (x :: xs) d.toNat hdn1 (by simp) hrlen
        have htake0 : p.takeWhile (fun c => c == '0') =
            List.replicate (d.toNat - (x :: xs).length) '0' := by
          have hmem : ∀ c ∈ p.takeWhile (fun c => c == '0'), c = '0' := by
            intro c hc
            simpa using List.mem_takeWhile_imp hc
          have hlen2 := congrArg List.length hsplit
          simp only [List.length_append] at hlen2
          rw [List.eq_replicate_of_mem hmem]
          congr 1
          omega
        have hfrac_p : fbuFracPart (x :: xs) d.toNat = p := by
          rw [hFP, ← htake0]
          exact hsplit
        have htf : trimTrailingZeros f ≠ [] := by
          intro hnil
          have hfz := trimTrailingZeros_eq_nil_iff.mp hnil
          have hall0 : dropZeros p = [] := by
            unfold dropZeros
            apply dropWhile_eq_nil_of_all
            intro c hc
            rcases List.mem_append.mp hc with h | h
            · simp [hfz c h]
            · simp [List.eq_of_mem_replicate h]
          rw [hall0] at hB
          exact absurd hB.symm (by simp)
        rw [hbdata, hfrac_p, trimTrailingZeros_append_replicate]
        cases ht : trimTrailingZeros f with
        | nil => exact absurd ht htf
        | cons t0 ts =>
          simp only [List.isEmpty_cons, Bool.false_eq_true, if_false]
          rw [hWP, canonicalDec_of_trim_cons ht, stripLeadingZeros_of_nil hA]
      | nil =>
        have hpz : ∀ c ∈ p, (c == '0') = true := dropWhile_eq_nil_imp hB
        have hbdata : b.data = ['0'] := by
          rw [hb, stripLeadingZeros_of_nil (by rw [hdz, hB])]
        have htf : trimTrailingZeros f = [] := by
          apply trimTrailingZeros_eq_nil_iff.mpr
          intro c hc
          simpa using hpz c (List.mem_append_left _ hc)
        obtain ⟨hWP, hFP⟩ := fbu_small ['0'] d.toNat hdn1 (by simp) (by simpa using hdn1)
        have htz : trimTrailingZeros (List.replicate
            (d.toNat - (['0'] : List Char).length) '0' ++ ['0']) = [] := by
          apply trimTrailingZeros_eq_nil_iff.mpr
          intro c hc
          rcases List.mem_append.mp hc with h | h
          · exact List.eq_of_mem_replicate h
          · simpa using h
        rw [hbdata, hFP, htz]
        simp only [List.isEmpty_nil, if_true]
        rw [hWP, canonicalDec_of_trim_nil htf, stripLeadingZeros_of_nil hA]

/-- Claim C2: for precision d in 0, 6, 8, 18 and every non-negative decimal
string with at most d fractional digits (a non-empty all-digit whole part,
optionally followed by a dot and an all-digit fractional part),
`fromBaseUnits(toBaseUnits(s, d), d)` succeeds and equals the canonical form
of s: superfluous leading zeros of the whole part and trailing zeros of the
fractional part removed, and the dot removed when the fractional part
becomes empty. -/
theorem claim_C2_round_trip : ∀ (d : Int), (d = 0 ∨ d = 6 ∨ d = 8 ∨ d = 18) →
    ∀ (w f : List Char) (s : String), w ≠ [] → (∀ c ∈ w, isDigitCh c = true) →
    (∀ c ∈ f, isDigitCh c = true) → (f.length : Int) ≤ d →
    (s.data = w ++ '.' :: f ∨ (s.data = w ∧ f = [])) →
    ∃ b, RewardCalculator.toBaseUnits s d = .ok b ∧
      RewardCalculator.fromBaseUnits b d = .ok (canonicalDec w f) := by
  intro d hd w f s hw hwd hfd hlen hs
  have h0 : 0 ≤ d := by rcases hd with rfl | rfl | rfl | rfl <;> norm_num
  have h77 : d ≤ 77 := by rcases hd with rfl | rfl | rfl | rfl <;> norm_num
  have hlen2 : f.length ≤ d.toNat := by omega
  refine ⟨⟨stripLeadingZeros (w ++ (f ++ List.replicate (d.toNat - f.length) '0'))⟩,
    toBaseUnits_wf w f hw hwd hfd d h0 h77 hlen2 s hs, ?_⟩
  exact fromBaseUnits_round w f hw hwd hfd d h0 h77 hlen2 rfl

/-- Witness for claim C2: the round trip at s = "0012.3400", d = 6, whose
canonical form is "12.34". -/
theorem claim_C2_witness :
    ∃ b, RewardCalculator.toBaseUnits "0012.3400" 6 = .ok b ∧
      RewardCalculator.fromBaseUnits b 6 = .ok "12.34" :=
  claim_C2_round_trip 6 (by norm_num) ['0', '0', '1', '2'] ['3', '4', '0', '0']
    "0012.3400" (by decide) (by decide) (by decide) (by decide) (Or.inl rfl)
